import Mathlib

/-!
Verification development for a small in-memory key/value server (mini-redis).

The embedding works at the byte level: the wire protocol operates on byte
streams, so wire input and output are modelled as `List Nat` of byte
values.  A Rust `String` is a sequence of Unicode scalar values, so the
`String` payloads of wire values are modelled as `List Nat` of code
points; the formatter emits their UTF-8 encoding (`utf8Encode`), and the
parser's `String::from_utf8` decoding (`fromUtf8`) and byte-as-`char`
reads are made explicit where the source performs them.  Machine integers
are modelled as `Int`/`Nat` with the range checks of the Rust
`parse::<iN>` calls made explicit.  Time (`Instant`, `Duration`) is
modelled by `Nat` ticks; `Instant - Instant` saturates, which matches
`Nat` truncated subtraction.

Sources embedded below:
  * `src/value.rs`    — wire value type and its `Display` formatter,
  * `src/parse.rs`    — the RESP frame parser (`RespParser`),
  * `src/store.rs`    — the sharded ordered-list store (`ConcurrentHashtable`),
  * `src/dataframe.rs`— stored frames with optional expiration,
  * `src/operation.rs`— the command resolver (`StandardOperationDeducer`),
  * `src/server.rs`   — the GET handler and the expiration sweeper loop.
-/

/-! ### Decimal numerals (Rust `Display` for integers and `str::parse`) -/

/-- Is the byte an ASCII decimal digit (`b'0'..=b'9'`)? -/
def isDigit (b : Nat) : Bool := 48 ≤ b && b ≤ 57

/-- Decimal digits (as ASCII bytes, most significant first) of `n`.
The `fuel` argument only drives structural recursion; `natToDigits` below
always supplies enough. -/
def natToDigitsAux : Nat → Nat → List Nat
  | 0, _ => []
  | fuel + 1, n => if n < 10 then [48 + n] else natToDigitsAux fuel (n / 10) ++ [48 + n % 10]

/-- ASCII bytes of the usual decimal representation of `n`, as produced by
Rust's `Display` for unsigned integers. -/
def natToDigits (n : Nat) : List Nat := natToDigitsAux (n + 1) n

/-- ASCII bytes of the decimal representation of `n`, as produced by Rust's
`Display` for signed integers (`-` sign followed by the magnitude). -/
def intToBytes (n : Int) : List Nat :=
  if n < 0 then 45 :: natToDigits n.natAbs else natToDigits n.toNat

/-- Value of a digit string, most significant digit first. -/
def digitsVal (s : List Nat) : Nat := s.foldl (fun acc b => acc * 10 + (b - 48)) 0

/-- Parse a non-empty, all-digit byte string to a natural number
(the digit part of Rust's integer `parse`). -/
def parseNatDigits (s : List Nat) : Option Nat :=
  if s ≠ [] ∧ s.all isDigit then some (digitsVal s) else none

/-- Sign handling of Rust's integer `parse`: one optional leading `+` or `-`,
then a non-empty digit string.  The numeric value is returned without any
range restriction; the `iN`-specific range checks are applied on top. -/
def parseIntCore (s : List Nat) : Option Int :=
  match s with
  | [] => none
  | b :: rest =>
    if b = 43 then (parseNatDigits rest).map (fun m => (m : Int))
    else if b = 45 then (parseNatDigits rest).map (fun m => -(m : Int))
    else (parseNatDigits (b :: rest)).map (fun m => (m : Int))

/-- Rust `str::parse::<i64>`: value must fit in a signed 64-bit integer. -/
def parseI64 (s : List Nat) : Option Int :=
  (parseIntCore s).bind (fun v => if -(2 ^ 63) ≤ v ∧ v ≤ 2 ^ 63 - 1 then some v else none)

/-- Rust `str::parse::<i32>`: value must fit in a signed 32-bit integer. -/
def parseI32 (s : List Nat) : Option Int :=
  (parseIntCore s).bind (fun v => if -(2 ^ 31) ≤ v ∧ v ≤ 2 ^ 31 - 1 then some v else none)

/-- Rust `str::parse::<u64>`: one optional leading `+`, then digits, value
below `2^64`. -/
def parseU64 (s : List Nat) : Option Nat :=
  match s with
  | 43 :: rest => (parseNatDigits rest).bind (fun m => if m < 2 ^ 64 then some m else none)
  | _ => (parseNatDigits s).bind (fun m => if m < 2 ^ 64 then some m else none)

/-! ### UTF-8 (Rust `String` payloads)

A Rust `String` stores a sequence of Unicode scalar values as UTF-8
bytes.  `utf8Encode` is the byte content of the `String` holding a given
scalar sequence (what `Display` writes and what `str::len` measures);
`fromUtf8` is `String::from_utf8`, the strict decoder that
`parse_bulk_string` and `parse_len` apply to raw bytes and `unwrap`. -/

/-- UTF-8 bytes of one Unicode scalar value. -/
def utf8EncodeChar (c : Nat) : List Nat :=
  if c < 128 then [c]
  else if c < 2048 then [192 + c / 64, 128 + c % 64]
  else if c < 65536 then [224 + c / 4096, 128 + c / 64 % 64, 128 + c % 64]
  else [240 + c / 262144, 128 + c / 4096 % 64, 128 + c / 64 % 64, 128 + c % 64]

/-- UTF-8 bytes of a scalar-value sequence: the byte content of the Rust
`String` holding it. -/
def utf8Encode (s : List Nat) : List Nat := (s.map utf8EncodeChar).flatten

/-- Decode one UTF-8-encoded scalar value from the front of a byte list,
with the exact validation of `String::from_utf8`: continuation bytes are
`128..=191`, the second byte of a three- or four-byte sequence is further
restricted so that overlong forms, surrogates (`U+D800..U+DFFF`) and code
points above `U+10FFFF` are rejected, and leading bytes `192`, `193` and
`245..` are invalid outright. -/
def utf8DecodeChar : List Nat → Option (Nat × List Nat)
  | [] => none
  | b0 :: rest =>
    if b0 < 128 then some (b0, rest)
    else if 194 ≤ b0 ∧ b0 ≤ 223 then
      match rest with
      | b1 :: rest1 =>
        if 128 ≤ b1 ∧ b1 ≤ 191 then some ((b0 - 192) * 64 + (b1 - 128), rest1) else none
      | [] => none
    else if 224 ≤ b0 ∧ b0 ≤ 239 then
      match rest with
      | b1 :: b2 :: rest2 =>
        if ((if b0 = 224 then 160 else 128) ≤ b1 ∧ b1 ≤ (if b0 = 237 then 159 else 191)) ∧
            128 ≤ b2 ∧ b2 ≤ 191 then
          some ((b0 - 224) * 4096 + (b1 - 128) * 64 + (b2 - 128), rest2)
        else none
      | _ => none
    else if 240 ≤ b0 ∧ b0 ≤ 244 then
      match rest with
      | b1 :: b2 :: b3 :: rest3 =>
        if ((if b0 = 240 then 144 else 128) ≤ b1 ∧ b1 ≤ (if b0 = 244 then 143 else 191)) ∧
            (128 ≤ b2 ∧ b2 ≤ 191) ∧ 128 ≤ b3 ∧ b3 ≤ 191 then
          some ((b0 - 240) * 262144 + (b1 - 128) * 4096 + (b2 - 128) * 64 + (b3 - 128), rest3)
        else none
      | _ => none
    else none

/-- Fuelled decoding loop.  Every scalar consumes at least one byte, so
one unit of fuel per input byte (as `fromUtf8` supplies) is enough. -/
def utf8DecodeAux : Nat → List Nat → Option (List Nat)
  | _, [] => some []
  | 0, _ :: _ => none
  | fuel + 1, b :: t =>
    match utf8DecodeChar (b :: t) with
    | none => none
    | some (c, rest) => (utf8DecodeAux fuel rest).map (fun cs => c :: cs)

/-- `String::from_utf8` on a byte list: the scalar values, or `none` on
invalid UTF-8 (every call site in `parse.rs` `unwrap`s this: a panic). -/
def fromUtf8 (l : List Nat) : Option (List Nat) := utf8DecodeAux l.length l

/-! ### Wire values and the formatter (`src/value.rs`) -/

/-- The RESP wire value universe (`enum Value`).  String payloads are the
Unicode scalar values of the Rust `String` carrying them; `Integer`
carries the value of the Rust `i64`. -/
inductive Value where
  | Array (elems : List Value)
  | Integer (n : Int)
  | SimpleString (s : List Nat)
  | BulkString (s : List Nat)
  | NullBulkString
  | NullArray
  | Error (s : List Nat)

mutual
/-- The `Display` implementation for `Value`: the canonical RESP encoding.
String payloads are written as their UTF-8 bytes, and the declared length
of a bulk string is `string.len()`, its UTF-8 byte count.  The decimal
digits of `Integer` and of the lengths are ASCII, already identical to
their UTF-8 encoding. -/
def formatValue : Value → List Nat
  | .Integer n => 58 :: (intToBytes n ++ [13, 10])
  | .SimpleString s => 43 :: (utf8Encode s ++ [13, 10])
  | .BulkString s =>
    36 :: (natToDigits (utf8Encode s).length ++ [13, 10] ++ utf8Encode s ++ [13, 10])
  | .Error s => 45 :: (utf8Encode s ++ [13, 10])
  | .NullBulkString => [36, 45, 49, 13, 10]
  | .NullArray => [42, 45, 49, 13, 10]
  | .Array vs => 42 :: (natToDigits vs.length ++ [13, 10] ++ formatList vs)

/-- Encoding of a sequence of wire values, in order (the `Array` body). -/
def formatList : List Value → List Nat
  | [] => []
  | v :: rest => formatValue v ++ formatList rest
end

/-! ### The frame parser (`src/parse.rs`)

Each parsing function takes the not-yet-consumed byte stream and returns the
parsed result together with the remaining stream.  `PErr` distinguishes the
`io::ErrorKind::InvalidInput` failures the parser constructs itself, the
`UnexpectedEof` failures of `read_exact`, and aborts of the Rust process
(`panicked`, e.g. the capacity-overflow panic of `String::with_capacity`
on a negative length cast to `usize`). -/

/-- Failure modes of the embedded parser. -/
inductive PErr where
  | invalidInput
  | unexpectedEof
  | panicked
deriving DecidableEq

/-- Loop body of `read_until_crlf`: `foundCr` is the `found_cr` flag.  A CR
byte arms the flag; an armed flag followed by LF terminates; otherwise the
pending CR (if any) and the current byte are appended literally.  Reaching
the end of input returns the accumulated result (`Ok`). -/
def readCrlfAux : List Nat → Bool → List Nat × List Nat
  | [], _ => ([], [])
  | b :: rest, foundCr =>
    if !foundCr && b == 13 then readCrlfAux rest true
    else if foundCr && b == 10 then ([], rest)
    else
      let pre := if foundCr then [13, b] else [b]
      let r := readCrlfAux rest false
      (pre ++ r.1, r.2)

/-- `RespParser::read_until_crlf`: content up to the terminator, and the
stream after it.  The loop builds the result with `result.push(byte as
char)`, so each content element is the Unicode scalar equal to the raw
byte value — for bytes `128..` this is NOT UTF-8 decoding of the input,
and the `String` built from such a byte re-encodes to different bytes. -/
def readUntilCrlf (s : List Nat) : List Nat × List Nat := readCrlfAux s false

/-- `RespParser::parse_len`: consume the maximal run of digit-or-`-` bytes
into a 256-byte buffer (overrunning the buffer is an index-out-of-bounds
panic), consume the byte that ended the run plus one more byte, and parse
the run as an `i32`. -/
def parseLen (s : List Nat) : Except PErr (Int × List Nat) :=
  let run := s.takeWhile (fun b => isDigit b || b == 45)
  if run.length > 256 then .error .panicked
  else
    match parseI32 run with
    | some n => .ok (n, (s.drop run.length).drop 2)
    | none => .error .invalidInput

/-- `RespParser::parse_integer`: `read_until_crlf`, then `parse::<i64>`. -/
def parseInteger (s : List Nat) : Except PErr (Value × List Nat) :=
  let r := readUntilCrlf s
  match parseI64 r.1 with
  | some v => .ok (.Integer v, r.2)
  | none => .error .invalidInput

/-- `RespParser::parse_simple_string`. -/
def parseSimpleString (s : List Nat) : Except PErr (Value × List Nat) :=
  let r := readUntilCrlf s
  .ok (.SimpleString r.1, r.2)

/-- `RespParser::parse_error`: a simple string re-tagged as `Error`. -/
def parseErrorVal (s : List Nat) : Except PErr (Value × List Nat) :=
  let r := readUntilCrlf s
  .ok (.Error r.1, r.2)

/-- The `while read_count > 0` loop of `parse_bulk_string`: `read_exact`
one full 256-byte chunk per iteration (end of input being
`UnexpectedEof`), decode it with `String::from_utf8(buf.to_vec()).unwrap()`
— a chunk that is not valid UTF-8 on its own is a panic — and append the
scalars to the accumulated string. -/
def bulkChunks : Nat → List Nat → Except PErr (List Nat × List Nat)
  | 0, s => .ok ([], s)
  | k + 1, s =>
    if s.length < 256 then .error .unexpectedEof
    else
      match fromUtf8 (s.take 256) with
      | none => .error .panicked
      | some cs =>
        match bulkChunks k (s.drop 256) with
        | .error e => .error e
        | .ok (cs2, rest) => .ok (cs ++ cs2, rest)

/-- The `if len > 0` remainder read of `parse_bulk_string`: the final
`len % 256` payload bytes, decoded by the same unwrapped
`String::from_utf8`. -/
def bulkRemainder (r : Nat) (s : List Nat) : Except PErr (List Nat × List Nat) :=
  if r = 0 then .ok ([], s)
  else if s.length < r then .error .unexpectedEof
  else
    match fromUtf8 (s.take r) with
    | none => .error .panicked
    | some cs => .ok (cs, s.drop r)

/-- `RespParser::parse_bulk_string`.  Length `-1` is the null bulk string.
Any other negative length is cast to a huge `usize`, and
`String::with_capacity` panics with a capacity overflow.  Otherwise the
`len` payload bytes are read in `len / 256` full 256-byte chunks plus a
remainder, each chunk decoded by an unwrapped `String::from_utf8` (an
invalid chunk is a panic, reachable even on globally valid UTF-8 payloads
when a 256-byte boundary cuts a scalar's encoding), and `skip_crlf`
consumes the following two bytes without inspecting them. -/
def parseBulkString (s : List Nat) : Except PErr (Value × List Nat) :=
  match parseLen s with
  | .error e => .error e
  | .ok (len, rest) =>
    if len = -1 then .ok (.NullBulkString, rest)
    else if len < 0 then .error .panicked
    else
      match bulkChunks (len.toNat / 256) rest with
      | .error e => .error e
      | .ok (cs1, rest1) =>
        match bulkRemainder (len.toNat % 256) rest1 with
        | .error e => .error e
        | .ok (cs2, rest2) => .ok (.BulkString (cs1 ++ cs2), rest2.drop 2)

/-- One step of the element loop of `parse_array`: parse `k` values with the
given parser for the recursive `self.parse` calls. -/
def runElems (p : List Nat → Except PErr (Value × List Nat)) :
    Nat → List Nat → Except PErr (List Value × List Nat)
  | 0, s => .ok ([], s)
  | k + 1, s =>
    match p s with
    | .error e => .error e
    | .ok (v, rest) =>
      match runElems p k rest with
      | .error e => .error e
      | .ok (vs, rest') => .ok (v :: vs, rest')

/-- `RespParser::parse_array` with the recursive value parser abstracted.
Length `-1` is the null array; any other negative length makes
`Vec::with_capacity` panic with a capacity overflow. -/
def parseArrayStep (p : List Nat → Except PErr (Value × List Nat)) (s : List Nat) :
    Except PErr (Value × List Nat) :=
  match parseLen s with
  | .error e => .error e
  | .ok (len, rest) =>
    if len = -1 then .ok (.NullArray, rest)
    else if len < 0 then .error .panicked
    else
      match runElems p len.toNat rest with
      | .error e => .error e
      | .ok (vs, rest') => .ok (.Array vs, rest')

/-- `RespParser::parse`: dispatch on the type-tag byte; a missing or unknown
tag is `InvalidInput`. -/
def parseStep (p : List Nat → Except PErr (Value × List Nat)) (s : List Nat) :
    Except PErr (Value × List Nat) :=
  match s with
  | [] => .error .invalidInput
  | b :: rest =>
    if b = 42 then parseArrayStep p rest
    else if b = 58 then parseInteger rest
    else if b = 43 then parseSimpleString rest
    else if b = 36 then parseBulkString rest
    else if b = 45 then parseErrorVal rest
    else .error .invalidInput

/-- Fuelled tying of the recursive knot of `RespParser::parse`.  Every
recursive call in the source consumes at least one byte first, so
`parseValue` below can always supply sufficient fuel. -/
def parseF : Nat → List Nat → Except PErr (Value × List Nat)
  | 0 => fun _ => .error .unexpectedEof
  | fuel + 1 => parseStep (parseF fuel)

/-- `RespParser::parse` on a finite input: one wire value plus the
unconsumed remainder of the input. -/
def parseValue (s : List Nat) : Except PErr (Value × List Nat) := parseF (s.length + 1) s

/-! ### The sharded store (`src/store.rs`)

A `Shard` is an ordered singly-linked list behind a sentinel head node; its
observable content is the list of `(key, value)` nodes after the sentinel,
modelled as `List (K × V)`.  The hand-over-hand lock choreography is a
liveness device and does not change the sequential semantics embedded here.
`ConcurrentHashtable` is a vector of shards addressed by
`hash(key) % shard-count`; the hasher is an arbitrary function `K → Nat`. -/

/-- `Shard::get` (`get_util`): walk the ordered list; stop with `Some` on an
equal key, with `None` on a strictly greater key or at the end. -/
def listGet {K V : Type} [LinearOrder K] (k : K) : List (K × V) → Option V
  | [] => none
  | (k', v') :: rest =>
    if k' = k then some v'
    else if k' > k then none
    else listGet k rest

/-- `Shard::set` (`set_util`): splice before the first strictly greater key,
overwrite the value in place on an equal key, append at the end. -/
def listSet {K V : Type} [LinearOrder K] (k : K) (v : V) : List (K × V) → List (K × V)
  | [] => [(k, v)]
  | (k', v') :: rest =>
    if k' > k then (k, v) :: (k', v') :: rest
    else if k' = k then (k', v) :: rest
    else (k', v') :: listSet k v rest

/-- `Shard::remove_if` (`remove_util`): walk the ordered list; fail on a
strictly greater key or at the end; on an equal key unlink the node only if
the predicate holds of its value.  Returns the new list and whether a node
was removed. -/
def listRemoveIf {K V : Type} [LinearOrder K] (k : K) (cond : V → Bool) :
    List (K × V) → List (K × V) × Bool
  | [] => ([], false)
  | (k', v') :: rest =>
    if k' > k then ((k', v') :: rest, false)
    else if k' = k then
      if cond v' then (rest, true) else ((k', v') :: rest, false)
    else
      let r := listRemoveIf k cond rest
      ((k', v') :: r.1, r.2)

/-- `Shard::remove`: `remove_if` with the always-true predicate. -/
def listRemove {K V : Type} [LinearOrder K] (k : K) (l : List (K × V)) : List (K × V) × Bool :=
  listRemoveIf k (fun _ => true) l

/-- The observable state of a `ConcurrentHashtable`: one node list per shard. -/
abbrev Table (K V : Type) := List (List (K × V))

/-- `ConcurrentHashtable::get_hash`: hash the key and reduce modulo the
shard count. -/
def tableIdx {K : Type} (h : K → Nat) (k : K) (n : Nat) : Nat := h k % n

/-- `ConcurrentHashtable::get`. -/
def tableGet {K V : Type} [LinearOrder K] (h : K → Nat) (k : K) (s : Table K V) : Option V :=
  listGet k (s.getD (tableIdx h k s.length) [])

/-- `ConcurrentHashtable::contains`: literally `self.get(key).is_some()`. -/
def tableContains {K V : Type} [LinearOrder K] (h : K → Nat) (k : K) (s : Table K V) : Bool :=
  (tableGet h k s).isSome

/-- `ConcurrentHashtable::set`. -/
def tableSet {K V : Type} [LinearOrder K] (h : K → Nat) (k : K) (v : V) (s : Table K V) :
    Table K V :=
  s.set (tableIdx h k s.length) (listSet k v (s.getD (tableIdx h k s.length) []))

/-- `ConcurrentHashtable::remove_if`. -/
def tableRemoveIf {K V : Type} [LinearOrder K] (h : K → Nat) (k : K) (cond : V → Bool)
    (s : Table K V) : Table K V × Bool :=
  let r := listRemoveIf k cond (s.getD (tableIdx h k s.length) [])
  (s.set (tableIdx h k s.length) r.1, r.2)

/-- `ConcurrentHashtable::remove`. -/
def tableRemove {K V : Type} [LinearOrder K] (h : K → Nat) (k : K) (s : Table K V) :
    Table K V × Bool :=
  tableRemoveIf h k (fun _ => true) s

/-- Shard content is sorted strictly ascending by key. -/
def Sorted {K V : Type} [LinearOrder K] (l : List (K × V)) : Prop :=
  List.Pairwise (fun p q => p.1 < q.1) l

/-- Every shard of the table is sorted. -/
def TableSorted {K V : Type} [LinearOrder K] (s : Table K V) : Prop :=
  ∀ l ∈ s, Sorted l

/-- One public mutating store operation, for reasoning about operation
sequences. -/
inductive StoreOp (K V : Type) where
  | set (k : K) (v : V)
  | remove (k : K)
  | removeIf (k : K) (cond : V → Bool)

/-- Apply one mutating operation to the table. -/
def applyOp {K V : Type} [LinearOrder K] (h : K → Nat) : StoreOp K V → Table K V → Table K V
  | .set k v, s => tableSet h k v s
  | .remove k, s => (tableRemove h k s).1
  | .removeIf k c, s => (tableRemoveIf h k c s).1

/-- Apply a sequence of mutating operations, oldest first. -/
def applyOps {K V : Type} [LinearOrder K] (h : K → Nat) (ops : List (StoreOp K V))
    (s : Table K V) : Table K V :=
  ops.foldl (fun t op => applyOp h op t) s

/-- Shard states reachable from the empty shard by `set`, `remove` and
`remove_if` (the mutating shard API). -/
inductive ShardReach {K V : Type} [LinearOrder K] : List (K × V) → Prop where
  | nil : ShardReach []
  | set (k : K) (v : V) {l : List (K × V)} : ShardReach l → ShardReach (listSet k v l)
  | rem (k : K) {l : List (K × V)} : ShardReach l → ShardReach (listRemove k l).1
  | remIf (k : K) (c : V → Bool) {l : List (K × V)} :
      ShardReach l → ShardReach (listRemoveIf k c l).1

/-! ### Stored frames (`src/dataframe.rs`) -/

/-- `DataFrame`: a stored entry, optionally expiring.  `expiration` is a
duration and `timestamp` the monotonic creation instant, both in ticks. -/
inductive DataFrame (T : Type) where
  | Empty
  | Plain (data : T)
  | Expiring (data : T) (expiration : Nat) (timestamp : Nat)
deriving DecidableEq

/-- `DataFrame::has_expired`: an `Expiring` frame whose elapsed time reached
its expiration.  `timestamp.elapsed()` is `now - timestamp`. -/
def hasExpired {T : Type} (now : Nat) : DataFrame T → Bool
  | .Expiring _ e t => e ≤ now - t
  | _ => false

/-! ### The server GET/SET paths (`src/server.rs`) -/

/-- Reply of `Server::handle_get` (the wire value written back), with the
`panic!` on a non-expired `Empty` frame made explicit. -/
inductive GetReply (T : Type) where
  | nullBulk
  | bulk (data : T)
  | panicEmpty
deriving DecidableEq

/-- `Server::handle_get`: look the key up; absent replies null; an expired
frame replies null after an unconditional `store.remove(key)`; otherwise the
payload is returned. -/
def handleGet {K T : Type} [LinearOrder K] (h : K → Nat) (now : Nat) (k : K)
    (s : Table K (DataFrame T)) : GetReply T × Table K (DataFrame T) :=
  match tableGet h k s with
  | none => (.nullBulk, s)
  | some df =>
    if hasExpired now df then (.nullBulk, (tableRemove h k s).1)
    else
      match df with
      | .Plain data => (.bulk data, s)
      | .Expiring data _ _ => (.bulk data, s)
      | .Empty => (.panicEmpty, s)

/-- `Server::handle_set`: store a `Plain` frame, or an `Expiring` frame
time-stamped with the current instant (`DataFrame::with_expiration`).  The
reply is always `SimpleString("OK")`. -/
def handleSet {K T : Type} [LinearOrder K] (h : K → Nat) (now : Nat) (k : K) (v : T)
    (expiration : Option Nat) (s : Table K (DataFrame T)) : Table K (DataFrame T) :=
  match expiration with
  | some e => tableSet h k (.Expiring v e now) s
  | none => tableSet h k (.Plain v) s

/-! ### The expiration sweeper (`Server::clean_expired`) -/

/-- `CLEANER_TASK_SAMPLE_SIZE`. -/
def cleanerTaskSampleSize : Nat := 20

/-- `CLEANER_TASK_SUCCESS_FACTOR`. -/
def cleanerTaskSuccessFactor : Nat := 4

/-- The candidate record the sweeper's `for_each` closure collects for every
`Expiring` frame: `(key, expiration, timestamp)`. -/
def expOf {K T : Type} (p : K × DataFrame T) : Option (K × Nat × Nat) :=
  match p.2 with
  | .Expiring _ e t => some (p.1, e, t)
  | _ => none

/-- The `expired_keys` list one sweeper iteration collects via `for_each`:
all `Expiring` entries across the shards, in shard-then-list order. -/
def expiredKeys {K T : Type} (s : Table K (DataFrame T)) : List (K × Nat × Nat) :=
  s.flatten.filterMap expOf

/-- The removal loop over the sampled candidates: a candidate whose
expiration has not yet elapsed is skipped, otherwise `store.remove` runs and
successful removals are counted. -/
def sweepPass {K T : Type} [LinearOrder K] (h : K → Nat) (now : Nat) :
    List (K × Nat × Nat) → Table K (DataFrame T) → Table K (DataFrame T) × Nat
  | [], s => (s, 0)
  | (k, e, t) :: rest, s =>
    if e > now - t then sweepPass h now rest s
    else
      let r := tableRemove h k s
      let r' := sweepPass h now rest r.1
      (r'.1, (if r.2 then 1 else 0) + r'.2)

/-- One iteration of `clean_expired`'s `while` body, with the random sample
supplied by the caller.  Returns the new store and whether the tick ends
(`return` on a short sample, or `is_done` from the removal hit-rate). -/
def cleanIter {K T : Type} [LinearOrder K] (h : K → Nat) (now : Nat)
    (sample : List (K × Nat × Nat)) (s : Table K (DataFrame T)) :
    Table K (DataFrame T) × Bool :=
  if sample.length < cleanerTaskSampleSize then (s, true)
  else
    let r := sweepPass h now sample s
    (r.1, decide (r.2 ≤ cleanerTaskSampleSize / cleanerTaskSuccessFactor))

/-- The `while !is_done` loop of `clean_expired`, with an explicit iteration
budget: `none` means the budget was exhausted before the tick ended, `some`
returns the store at the end of the tick.  `oracle` supplies the random
sample drawn from the current store each time around the loop. -/
def cleanLoop {K T : Type} [LinearOrder K] (h : K → Nat) (now : Nat)
    (oracle : Table K (DataFrame T) → List (K × Nat × Nat)) :
    Nat → Table K (DataFrame T) → Option (Table K (DataFrame T))
  | 0, _ => none
  | fuel + 1, s =>
    let r := cleanIter h now (oracle s) s
    if r.2 then some r.1 else cleanLoop h now oracle fuel r.1

/-! ### The command resolver (`src/operation.rs`) -/

/-- Byte sequence of a string literal (ASCII command words and messages). -/
def strBytes (s : String) : List Nat := s.data.map Char.toNat

/-- ASCII lowercasing of one byte.  The resolver's `to_lowercase` is Unicode
lowercasing of the Rust string; on the ASCII byte sequences the command
words are matched against, the two coincide. -/
def asciiLower (b : Nat) : Nat := if 65 ≤ b ∧ b ≤ 90 then b + 32 else b

/-- Lowercased copy of a byte string. -/
def lowerStr (s : List Nat) : List Nat := s.map asciiLower

/-- Rust `str::eq_ignore_ascii_case` (byte-wise ASCII case folding). -/
def eqIgnoreAsciiCase (a b : List Nat) : Bool := lowerStr a = lowerStr b

/-- `enum Operation`: the resolved command.  `set`'s optional expiration is
in milliseconds (`Duration` from `EX` seconds or `PX` milliseconds). -/
inductive Operation where
  | ping
  | echo (msg : List Nat)
  | get (key : List Nat)
  | set (key : List Nat) (val : List Nat) (expiration : Option Nat)
  | invalid (msg : List Nat)
deriving DecidableEq

/-- Discriminator for the `Invalid` variant. -/
def Operation.isInvalid : Operation → Bool
  | .invalid _ => true
  | _ => false

/-- Message `"Error: Invalid or corrupt input"`. -/
def msgCorrupt : List Nat := strBytes "Error: Invalid or corrupt input"

/-- Message `"Invalid syntax for GET operation"`. -/
def msgBadGet : List Nat := strBytes "Invalid syntax for GET operation"

/-- Message `"Invalid syntax for SET operation"`. -/
def msgBadSet : List Nat := strBytes "Invalid syntax for SET operation"

/-- Message `"Error: Unkown operation {op}"` (sic). -/
def msgUnknown (op : List Nat) : List Nat := strBytes "Error: Unkown operation " ++ op

/-- `StandardOperationDeducer::deduce_echo`: `Echo` of element 1 whenever it
is a bulk string, no matter how many further elements follow. -/
def deduceEcho (tokens : List Value) : Operation :=
  match tokens.get? 1 with
  | some (.BulkString s) => .echo s
  | _ => .invalid msgCorrupt

/-- `StandardOperationDeducer::deduce_get`: exactly two bulk strings. -/
def deduceGet (tokens : List Value) : Operation :=
  match tokens with
  | [.BulkString _, .BulkString key] => .get key
  | _ => .invalid msgBadGet

/-- `StandardOperationDeducer::deduce_set`: three bulk strings, or five bulk
strings whose fourth is `ex`/`px` (ASCII case-insensitive) and whose fifth
parses as a `u64`.  `EX n` is `n` seconds, `PX n` is `n` milliseconds. -/
def deduceSet (tokens : List Value) : Operation :=
  match tokens with
  | [.BulkString _, .BulkString key, .BulkString v] => .set key v none
  | [.BulkString _, .BulkString key, .BulkString v, .BulkString exOp, .BulkString dur] =>
    match parseU64 dur with
    | some n =>
      if eqIgnoreAsciiCase exOp (strBytes "ex") then .set key v (some (n * 1000))
      else if eqIgnoreAsciiCase exOp (strBytes "px") then .set key v (some n)
      else .invalid msgBadSet
    | none => .invalid msgBadSet
  | _ => .invalid msgBadSet

/-- `StandardOperationDeducer::deduce_operation`: the input must be an array
whose first element is a bulk string; that word, lowercased, selects the
command.  `ping` is accepted with no arity check at all. -/
def deduceOperation (v : Value) : Operation :=
  match v with
  | .Array tokens =>
    match tokens with
    | .BulkString s :: _ =>
      let op := lowerStr s
      if op = strBytes "ping" then .ping
      else if op = strBytes "echo" then deduceEcho tokens
      else if op = strBytes "get" then deduceGet tokens
      else if op = strBytes "set" then deduceSet tokens
      else .invalid (msgUnknown op)
    | _ => .invalid msgCorrupt
  | _ => .invalid msgCorrupt

/-! ### Auxiliary predicates used by the claims -/

mutual
/-- Well-formed wire values whose encoding the parser can reproduce:
simple-string and error payloads are ASCII (a non-ASCII scalar is written
as several UTF-8 bytes and read back byte-as-`char` as several different
scalars) free of CR/LF, integers fit the Rust `i64` that carries them,
bulk-string payloads are ASCII (so no 256-byte read chunk can cut a
scalar's encoding and trip the `from_utf8` unwrap), and bulk-string
payloads and arrays are shorter than `2^31` (declared lengths are
re-parsed as `i32`). -/
def wfValue : Value → Bool
  | .Integer n => decide (-(2 ^ 63) ≤ n ∧ n ≤ 2 ^ 63 - 1)
  | .SimpleString s => s.all (fun b => decide (b < 128 ∧ b ≠ 13 ∧ b ≠ 10))
  | .Error s => s.all (fun b => decide (b < 128 ∧ b ≠ 13 ∧ b ≠ 10))
  | .BulkString s => s.all (fun b => decide (b < 128)) && decide (s.length < 2 ^ 31)
  | .NullBulkString => true
  | .NullArray => true
  | .Array vs => decide (vs.length < 2 ^ 31) && wfValueList vs

/-- All members of the list are well-formed. -/
def wfValueList : List Value → Bool
  | [] => true
  | v :: rest => wfValue v && wfValueList rest
end

/-- The operation neither writes nor removes key `k` (it targets some other
key). -/
def OpAvoids {K V : Type} [LinearOrder K] (k : K) : StoreOp K V → Bool
  | .set k' _ => decide (k' ≠ k)
  | .remove k' => decide (k' ≠ k)
  | .removeIf k' _ => decide (k' ≠ k)

/-- The operation is not a `set` of key `k` (removals of any key allowed). -/
def OpNoSet {K V : Type} [LinearOrder K] (k : K) : StoreOp K V → Bool
  | .set k' _ => decide (k' ≠ k)
  | .remove _ => true
  | .removeIf _ _ => true

/-- The candidate `(key, expiration, timestamp)` has a matching `Expiring`
node in the shard its key hashes to. -/
def MemT {K T : Type} (h : K → Nat) (s : Table K (DataFrame T)) (x : K × Nat × Nat) : Prop :=
  ∃ d, (x.1, DataFrame.Expiring d x.2.1 x.2.2) ∈ s.getD (tableIdx h x.1 s.length) []

/-- Every node sits in the shard its key hashes to (all nodes were inserted
by `set`, which routes by `hash(key) % shard-count`). -/
def TablePlaced {K V : Type} (h : K → Nat) (s : Table K V) : Prop :=
  ∀ i, i < s.length → ∀ p ∈ s.getD i [], tableIdx h p.1 s.length = i

/-- Invariants of every reachable store the sweeper runs against: at least
one shard, shards sorted, nodes placed by hash. -/
def SweeperInv {K V : Type} [LinearOrder K] (h : K → Nat) (s : Table K V) : Prop :=
  0 < s.length ∧ TableSorted s ∧ TablePlaced h s

/-- What `choose_multiple(rng, S)` guarantees of the sweeper's sample: the
candidates are drawn from the collected `expired_keys` list, without
replacement (hence, on a store whose keys are unique, with pairwise distinct
keys), and exactly `min S (number of candidates)` of them are returned. -/
def ValidSample {K T : Type} (sample : List (K × Nat × Nat)) (s : Table K (DataFrame T)) :
    Prop :=
  (∀ x ∈ sample, x ∈ expiredKeys s) ∧ (sample.map Prod.fst).Nodup ∧
    sample.length = min cleanerTaskSampleSize (expiredKeys s).length

/-! ## Lemmas about decimal numerals -/

theorem natToDigitsAux_all_digit :
    ∀ fuel n, n < fuel → ∀ b ∈ natToDigitsAux fuel n, isDigit b = true := by
  intro fuel
  induction fuel with
  | zero => intro n hn; omega
  | succ fuel ih =>
    intro n _ b hb
    by_cases h10 : n < 10
    · simp [natToDigitsAux, h10] at hb
      subst hb
      simp only [isDigit, Bool.and_eq_true, decide_eq_true_eq]
      omega
    · simp [natToDigitsAux, h10] at hb
      rcases hb with hb | hb
      · exact ih (n / 10) (by omega) b hb
      · subst hb
        simp only [isDigit, Bool.and_eq_true, decide_eq_true_eq]
        omega

theorem natToDigitsAux_ne_nil (fuel n : Nat) (h : n < fuel) : natToDigitsAux fuel n ≠ [] := by
  cases fuel with
  | zero => omega
  | succ fuel =>
    by_cases h10 : n < 10 <;> simp [natToDigitsAux, h10]

theorem digitsVal_append_singleton (a : List Nat) (d : Nat) :
    digitsVal (a ++ [d]) = digitsVal a * 10 + (d - 48) := by
  simp [digitsVal, List.foldl_append]

theorem natToDigitsAux_val :
    ∀ fuel n, n < fuel → digitsVal (natToDigitsAux fuel n) = n := by
  intro fuel
  induction fuel with
  | zero => intro n hn; omega
  | succ fuel ih =>
    intro n hn
    by_cases h10 : n < 10
    · simp [natToDigitsAux, h10, digitsVal]
    · have hd : n / 10 < fuel := by omega
      simp [natToDigitsAux, h10, digitsVal_append_singleton, ih (n / 10) hd]
      omega

theorem natToDigits_all_digit (n : Nat) : ∀ b ∈ natToDigits n, isDigit b = true :=
  natToDigitsAux_all_digit (n + 1) n (by omega)

theorem natToDigits_ne_nil (n : Nat) : natToDigits n ≠ [] :=
  natToDigitsAux_ne_nil (n + 1) n (by omega)

theorem parseNatDigits_natToDigits (n : Nat) : parseNatDigits (natToDigits n) = some n := by
  have hall : (natToDigits n).all isDigit = true := by
    rw [List.all_eq_true]
    exact natToDigits_all_digit n
  simp [parseNatDigits, natToDigits_ne_nil n, hall]
  exact natToDigitsAux_val (n + 1) n (by omega)

theorem parseIntCore_natToDigits (n : Nat) : parseIntCore (natToDigits n) = some (n : Int) := by
  rcases hcons : natToDigits n with _ | ⟨d, ds⟩
  · exact absurd hcons (natToDigits_ne_nil n)
  · have hd : isDigit d = true := by
      have := natToDigits_all_digit n
      rw [hcons] at this
      exact this d (by simp)
    have hd48 : 48 ≤ d := by
      simp [isDigit] at hd
      omega
    have h43 : ¬(d = 43) := by omega
    have h45 : ¬(d = 45) := by omega
    have := parseNatDigits_natToDigits n
    rw [hcons] at this
    simp [parseIntCore, h43, h45, this]

theorem parseIntCore_intToBytes (n : Int) : parseIntCore (intToBytes n) = some n := by
  by_cases hneg : n < 0
  · have habs : ((n.natAbs : Int)) = -n := by omega
    simp [intToBytes, hneg, parseIntCore, parseNatDigits_natToDigits, habs]
  · have htn : ((n.toNat : Int)) = n := by omega
    simp [intToBytes, hneg, parseIntCore_natToDigits, htn]

theorem parseI64_intToBytes (n : Int) (hlo : -(2 ^ 63) ≤ n) (hhi : n ≤ 2 ^ 63 - 1) :
    parseI64 (intToBytes n) = some n := by
  norm_num at hlo hhi
  simp [parseI64, parseIntCore_intToBytes, hlo, hhi]

theorem parseI32_natToDigits (L : Nat) (hL : L < 2 ^ 31) :
    parseI32 (natToDigits L) = some (L : Int) := by
  norm_num at hL
  simp [parseI32, parseIntCore_natToDigits]
  omega

theorem natToDigitsAux_length :
    ∀ k fuel n, n < fuel → n < 10 ^ (k + 1) → (natToDigitsAux fuel n).length ≤ k + 1 := by
  intro k
  induction k with
  | zero =>
    intro fuel n hf hn
    cases fuel with
    | zero => omega
    | succ fuel =>
      have h10 : n < 10 := by simpa using hn
      simp [natToDigitsAux, h10]
  | succ k ih =>
    intro fuel n hf hn
    cases fuel with
    | zero => omega
    | succ fuel =>
      by_cases h10 : n < 10
      · simp [natToDigitsAux, h10]
      · have hrec : n / 10 < 10 ^ (k + 1) := by
          rw [Nat.div_lt_iff_lt_mul (by norm_num : (0 : Nat) < 10)]
          calc n < 10 ^ (k + 2) := hn
            _ = 10 ^ (k + 1) * 10 := pow_succ 10 (k + 1)
        have := ih fuel (n / 10) (by omega) hrec
        simp [natToDigitsAux, h10]
        omega

theorem natToDigits_length_le (n : Nat) (k : Nat) (h : n < 10 ^ (k + 1)) :
    (natToDigits n).length ≤ k + 1 :=
  natToDigitsAux_length k (n + 1) n (by omega) h

/-! ## Lemmas about `read_until_crlf` -/

theorem readCrlfAux_crlf (r : List Nat) : readCrlfAux (13 :: 10 :: r) false = ([], r) := rfl

theorem readCrlfAux_no_cr (a : List Nat) (t : List Nat) (ha : ∀ b ∈ a, b ≠ 13) :
    readCrlfAux (a ++ t) false =
      (a ++ (readCrlfAux t false).1, (readCrlfAux t false).2) := by
  induction a with
  | nil => simp
  | cons x a ih =>
    have hx : x ≠ 13 := ha x (by simp)
    have hbeq : (x == 13) = false := by simpa using hx
    simp only [List.cons_append, readCrlfAux, hbeq, Bool.not_false, Bool.true_and,
      Bool.false_and, if_false]
    simp [ih (fun b hb => ha b (by simp [hb]))]

theorem readUntilCrlf_terminates (a b : List Nat) (ha : ∀ c ∈ a, c ≠ 13) :
    readUntilCrlf (a ++ 13 :: 10 :: b) = (a, b) := by
  unfold readUntilCrlf
  rw [readCrlfAux_no_cr a (13 :: 10 :: b) ha, readCrlfAux_crlf]
  simp

/-! ## Lemmas about `parse_len` -/

theorem takeWhile_all_append (p : Nat → Bool) (ds : List Nat) (x : Nat) (r : List Nat)
    (hall : ∀ b ∈ ds, p b = true) (hx : p x = false) :
    (ds ++ x :: r).takeWhile p = ds := by
  induction ds with
  | nil => simp [List.takeWhile, hx]
  | cons d ds ih =>
    have hd : p d = true := hall d (by simp)
    simp [List.takeWhile, hd, ih (fun b hb => hall b (by simp [hb]))]

theorem parseLen_ok (ds rest : List Nat) (n : Int)
    (hall : ∀ b ∈ ds, (isDigit b || b == 45) = true) (hlen : ds.length ≤ 256)
    (hparse : parseI32 ds = some n) :
    parseLen (ds ++ 13 :: 10 :: rest) = .ok (n, rest) := by
  have h13 : (fun b => isDigit b || b == 45) 13 = false := by decide
  have hrun : (ds ++ 13 :: 10 :: rest).takeWhile (fun b => isDigit b || b == 45) = ds :=
    takeWhile_all_append _ ds 13 (10 :: rest) hall h13
  have hdrop : (ds ++ 13 :: 10 :: rest).drop ds.length = 13 :: 10 :: rest :=
    List.drop_left ds (13 :: 10 :: rest)
  simp [parseLen, hrun, hdrop, hparse]
  omega

theorem parseLen_err (ds rest : List Nat)
    (hall : ∀ b ∈ ds, (isDigit b || b == 45) = true) (hlen : ds.length ≤ 256)
    (hparse : parseI32 ds = none) :
    parseLen (ds ++ 13 :: 10 :: rest) = .error .invalidInput := by
  have h13 : (fun b => isDigit b || b == 45) 13 = false := by decide
  have hrun : (ds ++ 13 :: 10 :: rest).takeWhile (fun b => isDigit b || b == 45) = ds :=
    takeWhile_all_append _ ds 13 (10 :: rest) hall h13
  simp [parseLen, hrun, hparse]
  omega

/-! ## Claim C6: negative lengths other than -1 -/

/-- Claim C6 (code_bug evidence): on the inputs `$-2\x0d\x0a` and
`*-2\x0d\x0a` — declared length negative and different from `-1` — the
parser does not return an `InvalidInput` failure: it panics (the negative
`i32` length is cast to a huge `usize` and `with_capacity` aborts with a
capacity overflow). -/
theorem c6_negative_length_panics :
    parseValue [36, 45, 50, 13, 10] = .error .panicked ∧
    parseValue [42, 45, 50, 13, 10] = .error .panicked ∧
    PErr.panicked ≠ PErr.invalidInput := by
  refine ⟨rfl, rfl, by decide⟩

/-! ## Claim C8: CR handling inside simple strings -/

theorem readCrlfAux_crcrlf (b : List Nat) :
    readCrlfAux (13 :: 13 :: 10 :: b) false =
      (13 :: 13 :: 10 :: (readCrlfAux b false).1, (readCrlfAux b false).2) := rfl

theorem readCrlfAux_cr_other (x : Nat) (b : List Nat) (hx10 : x ≠ 10) :
    readCrlfAux (13 :: x :: b) false =
      (13 :: x :: (readCrlfAux b false).1, (readCrlfAux b false).2) := by
  have h13 : (x == 10) = false := by simpa using hx10
  simp [readCrlfAux, h13]

/-- Claim C8 (counterexample): on the simple-string body
`a CR CR LF b CR LF`, the parser does not stop at the second CR (which is
immediately followed by LF); it keeps both CRs and the LF as literal content
and terminates only at the final CR LF, contradicting the claim's prediction
`("a" ++ CR, rest = "b" ++ CR LF)`. -/
theorem c8_counterexample :
    readUntilCrlf [97, 13, 13, 10, 98, 13, 10] = ([97, 13, 13, 10, 98], []) ∧
    readUntilCrlf [97, 13, 13, 10, 98, 13, 10] ≠ ([97, 13], [98, 13, 10]) := by
  refine ⟨rfl, by decide⟩

/-- Claim C8 (amended): a CR not immediately followed by LF is kept as a
literal CR, and the scan terminates at the first CR-LF pair whose CR is not
itself consumed as the literal following a pending CR.  In particular, after
a CR-free prefix `a`: a plain CR LF terminates with content `a`; CR CR LF
does not terminate — both CRs and the LF become literal content and the scan
continues; CR followed by any byte other than CR or LF likewise stays
literal. -/
theorem c8_amended (a b : List Nat) (x : Nat) (ha : ∀ c ∈ a, c ≠ 13)
    (hx10 : x ≠ 10) :
    readUntilCrlf (a ++ 13 :: 10 :: b) = (a, b) ∧
    readUntilCrlf (a ++ 13 :: 13 :: 10 :: b) =
      (a ++ 13 :: 13 :: 10 :: (readUntilCrlf b).1, (readUntilCrlf b).2) ∧
    readUntilCrlf (a ++ 13 :: x :: b) =
      (a ++ 13 :: x :: (readUntilCrlf b).1, (readUntilCrlf b).2) := by
  refine ⟨readUntilCrlf_terminates a b ha, ?_, ?_⟩
  · unfold readUntilCrlf
    rw [readCrlfAux_no_cr a _ ha, readCrlfAux_crcrlf]
  · unfold readUntilCrlf
    rw [readCrlfAux_no_cr a _ ha, readCrlfAux_cr_other x b hx10]

/-- Claim C8 witness: the amended statement evaluated on concrete input. -/
theorem c8_amended_witness :
    readUntilCrlf [97, 13, 10, 98] = ([97], [98]) ∧
    readUntilCrlf [97, 13, 13, 10, 98] =
      (97 :: 13 :: 13 :: 10 :: (readUntilCrlf [98]).1, (readUntilCrlf [98]).2) ∧
    readUntilCrlf [97, 13, 65, 98] =
      (97 :: 13 :: 65 :: (readUntilCrlf [98]).1, (readUntilCrlf [98]).2) := by
  exact c8_amended [97] [98] 65 (by decide) (by decide)

/-! ## Claim C9: `contains` is `get(..).is_some()` -/

/-- Claim C9: for every store state and key, `contains` returns `true`
exactly when `get` returns `Some` — it is definitionally
`self.get(key).is_some()`. -/
theorem c9_contains_iff_get (K V : Type) [LinearOrder K] (h : K → Nat) (k : K)
    (s : Table K V) :
    tableContains h k s = true ↔ ∃ v, tableGet h k s = some v := by
  simp [tableContains, Option.isSome_iff_exists]

/-! ## Claim C7: ping/echo arity handling -/

/-- Claim C7 (counterexample): `["ping", "x"]` (arity 2) resolves to `Ping`,
not to an `Invalid`, and `["echo", "a", "b"]` (arity 3) resolves to
`Echo "a"`, not to an `Invalid`. -/
theorem c7_counterexample :
    deduceOperation (.Array [.BulkString (strBytes "ping"), .BulkString (strBytes "x")]) =
      .ping ∧
    (deduceOperation
      (.Array [.BulkString (strBytes "ping"), .BulkString (strBytes "x")])).isInvalid
      = false ∧
    deduceOperation (.Array [.BulkString (strBytes "echo"), .BulkString (strBytes "a"),
      .BulkString (strBytes "b")]) = .echo (strBytes "a") ∧
    (deduceOperation (.Array [.BulkString (strBytes "echo"), .BulkString (strBytes "a"),
      .BulkString (strBytes "b")])).isInvalid = false := by
  refine ⟨by decide, by decide, by decide, by decide⟩

/-- Claim C7 (amended): `ping` resolves to `Ping` whatever the arity; `echo`
resolves to `Echo` of element 1 whenever that element is a bulk string (any
arity at least 2), and to an `Invalid` only when element 1 is missing (or
not a bulk string). -/
theorem c7_amended (s s' x : List Nat) (rest rest' : List Value)
    (hp : lowerStr s = strBytes "ping") (he : lowerStr s' = strBytes "echo") :
    deduceOperation (.Array (.BulkString s :: rest)) = .ping ∧
    deduceOperation (.Array (.BulkString s' :: .BulkString x :: rest')) = .echo x ∧
    deduceOperation (.Array [.BulkString s']) = .invalid msgCorrupt := by
  refine ⟨?_, ?_, ?_⟩
  · simp [deduceOperation, hp]
  · have hne : ¬(strBytes "echo" = strBytes "ping") := by decide
    simp [deduceOperation, he, hne, deduceEcho]
  · have hne : ¬(strBytes "echo" = strBytes "ping") := by decide
    simp [deduceOperation, he, hne, deduceEcho]

/-- Claim C7 witness: the amended statement evaluated on concrete tokens. -/
theorem c7_amended_witness :
    deduceOperation (.Array (.BulkString (strBytes "PING") :: [.BulkString (strBytes "x")])) =
      .ping ∧
    deduceOperation (.Array (.BulkString (strBytes "Echo") :: .BulkString (strBytes "hi") ::
      [.BulkString (strBytes "zz")])) = .echo (strBytes "hi") ∧
    deduceOperation (.Array [.BulkString (strBytes "Echo")]) = .invalid msgCorrupt := by
  exact c7_amended (strBytes "PING") (strBytes "Echo") (strBytes "hi")
    [.BulkString (strBytes "x")] [.BulkString (strBytes "zz")] (by decide) (by decide)

/-! ## Claim C4: the GET-of-expired path -/

/-- Claim C4 (code_bug evidence): `handle_get` of an expired key replies
`NullBulkString` but removes via the unconditional `store.remove`, not
`remove_if` with a still-expired predicate.  At the failing interleaving —
store `{0 ↦ Expiring(7, expiration 5, timestamp 0)}` read at `now = 10`,
with `SET 0 9` landing between the expiry check and the removal — the
code's removal deletes the freshly written `Plain 9` entry (a follow-up
`get` returns `none`), whereas `remove_if (has_expired now)` would have
preserved it. -/
theorem c4_expired_get_removes_refreshed_entry :
    handleGet (fun k => k) 10 0 [[(0, DataFrame.Expiring 7 5 0)]] =
      (.nullBulk, (tableRemove (fun k => k) 0 [[(0, DataFrame.Expiring 7 5 0)]]).1) ∧
    tableGet (fun k => k) 0
      ((tableRemove (fun k => k) 0
        (handleSet (fun k => k) 10 0 9 none [[(0, DataFrame.Expiring 7 5 0)]])).1) = none ∧
    tableGet (fun k => k) 0
      ((tableRemoveIf (fun k => k) 0 (hasExpired 10)
        (handleSet (fun k => k) 10 0 9 none [[(0, DataFrame.Expiring 7 5 0)]])).1) =
      some (DataFrame.Plain 9) := by
  refine ⟨by decide, by decide, by decide⟩

/-! ## Round-trip machinery for the codec -/

theorem natToDigits_or_dash (k : Nat) : ∀ b ∈ natToDigits k, (isDigit b || b == 45) = true := by
  intro b hb
  simp [natToDigits_all_digit k b hb]

theorem natToDigits_le_256 (k : Nat) (h : k < 2 ^ 31) : (natToDigits k).length ≤ 256 := by
  have h10 : k < 10 ^ 10 := by
    norm_num at h ⊢
    omega
  have := natToDigits_length_le k 9 h10
  omega

theorem natToDigits_no_cr (k : Nat) : ∀ b ∈ natToDigits k, b ≠ 13 := by
  intro b hb
  have := natToDigits_all_digit k b hb
  simp [isDigit] at this
  omega

theorem intToBytes_no_cr (n : Int) : ∀ b ∈ intToBytes n, b ≠ 13 := by
  intro b hb
  unfold intToBytes at hb
  by_cases hneg : n < 0
  · simp [hneg] at hb
    rcases hb with rfl | hb
    · omega
    · exact natToDigits_no_cr _ b hb
  · simp [hneg] at hb
    exact natToDigits_no_cr _ b hb

theorem parseLen_digits (k : Nat) (r : List Nat) (h31 : k < 2 ^ 31) :
    parseLen (natToDigits k ++ 13 :: 10 :: r) = .ok ((k : Int), r) :=
  parseLen_ok (natToDigits k) r (k : Int) (natToDigits_or_dash k) (natToDigits_le_256 k h31)
    (parseI32_natToDigits k h31)

theorem utf8EncodeChar_ascii (c : Nat) (h : c < 128) : utf8EncodeChar c = [c] := by
  simp [utf8EncodeChar, h]

theorem utf8Encode_ascii (s : List Nat) (h : ∀ c ∈ s, c < 128) : utf8Encode s = s := by
  induction s with
  | nil => rfl
  | cons c t ih =>
    show (utf8EncodeChar c :: t.map utf8EncodeChar).flatten = c :: t
    rw [List.flatten_cons, utf8EncodeChar_ascii c (h c (by simp)),
      show (t.map utf8EncodeChar).flatten = utf8Encode t from rfl,
      ih (fun c' hc' => h c' (by simp [hc']))]
    rfl

theorem utf8DecodeChar_ascii (b : Nat) (rest : List Nat) (h : b < 128) :
    utf8DecodeChar (b :: rest) = some (b, rest) := by
  simp [utf8DecodeChar, h]

theorem utf8DecodeAux_ascii :
    ∀ (fuel : Nat) (l : List Nat), l.length ≤ fuel → (∀ b ∈ l, b < 128) →
      utf8DecodeAux fuel l = some l := by
  intro fuel
  induction fuel with
  | zero =>
    intro l hl _
    cases l with
    | nil => rfl
    | cons b t => simp at hl
  | succ fuel ih =>
    intro l hl hb
    cases l with
    | nil => rfl
    | cons b t =>
      have h1 := utf8DecodeChar_ascii b t (hb b (by simp))
      have h2 := ih t (by simp at hl; omega) (fun c hc => hb c (by simp [hc]))
      simp [utf8DecodeAux, h1, h2]

theorem fromUtf8_ascii (l : List Nat) (h : ∀ b ∈ l, b < 128) : fromUtf8 l = some l :=
  utf8DecodeAux_ascii l.length l le_rfl h

theorem bulkChunks_ascii :
    ∀ (k : Nat) (P R : List Nat), (∀ b ∈ P, b < 128) → 256 * k ≤ P.length →
      bulkChunks k (P ++ R) = .ok (P.take (256 * k), P.drop (256 * k) ++ R) := by
  intro k
  induction k with
  | zero =>
    intro P R _ _
    simp [bulkChunks]
  | succ k ih =>
    intro P R hascii hlen
    have h256 : 256 ≤ P.length := by omega
    have hlenfull : ¬((P ++ R).length < 256) := by
      rw [List.length_append]
      omega
    have htake : (P ++ R).take 256 = P.take 256 := List.take_append_of_le_length h256
    have hdec : fromUtf8 (P.take 256) = some (P.take 256) :=
      fromUtf8_ascii _ (fun b hb => hascii b ((List.take_sublist _ _).mem hb))
    have hdrop : (P ++ R).drop 256 = P.drop 256 ++ R := List.drop_append_of_le_length h256
    have hih := ih (P.drop 256) R (fun b hb => hascii b ((List.drop_sublist _ _).mem hb))
      (by rw [List.length_drop]; omega)
    have ht : P.take 256 ++ (P.drop 256).take (256 * k) = P.take (256 * (k + 1)) := by
      rw [show 256 * (k + 1) = 256 + 256 * k by ring, List.take_add]
    have hd : (P.drop 256).drop (256 * k) = P.drop (256 * (k + 1)) := by
      rw [List.drop_drop]
      congr 1
      ring
    simp only [bulkChunks, if_neg hlenfull, htake, hdec, hdrop, hih]
    rw [ht, hd]

theorem bulkRemainder_ascii (P R : List Nat) (hascii : ∀ b ∈ P, b < 128) :
    bulkRemainder P.length (P ++ R) = .ok (P, R) := by
  by_cases h0 : P.length = 0
  · have hp : P = [] := List.length_eq_zero.1 h0
    subst hp
    simp [bulkRemainder]
  · have hlt : ¬((P ++ R).length < P.length) := by
      rw [List.length_append]
      omega
    have htake : (P ++ R).take P.length = P := List.take_left P R
    have hdec : fromUtf8 P = some P := fromUtf8_ascii P hascii
    have hdrop : (P ++ R).drop P.length = R := List.drop_left P R
    simp only [bulkRemainder, if_neg h0, if_neg hlt, htake, hdec, hdrop]

theorem parseBulkString_payload (s : List Nat) (t1 t2 : Nat) (rest : List Nat)
    (hascii : ∀ c ∈ s, c < 128) (h31 : s.length < 2 ^ 31) :
    parseBulkString (natToDigits s.length ++ 13 :: 10 :: (s ++ t1 :: t2 :: rest)) =
      .ok (.BulkString s, rest) := by
  rw [parseBulkString, parseLen_digits s.length (s ++ t1 :: t2 :: rest) h31]
  have hne1 : ¬((s.length : Int) = -1) := by omega
  have hneg : ¬((s.length : Int) < 0) := by omega
  have htn : ((s.length : Int)).toNat = s.length := Int.toNat_natCast s.length
  have hdm : 256 * (s.length / 256) + s.length % 256 = s.length := Nat.div_add_mod s.length 256
  have hch := bulkChunks_ascii (s.length / 256) s (t1 :: t2 :: rest) hascii (by omega)
  have hdlen : (s.drop (256 * (s.length / 256))).length = s.length % 256 := by
    rw [List.length_drop]
    omega
  have hrem := bulkRemainder_ascii (s.drop (256 * (s.length / 256))) (t1 :: t2 :: rest)
    (fun b hb => hascii b ((List.drop_sublist _ _).mem hb))
  rw [hdlen] at hrem
  simp only [hne1, if_false, hneg, htn, hch, hrem, List.take_append_drop]
  rfl

theorem parseLen_null (rest : List Nat) :
    parseLen (45 :: 49 :: 13 :: 10 :: rest) = .ok (-1, rest) := by
  have := parseLen_ok [45, 49] rest (-1) (by decide) (by decide) (by decide)
  simpa using this

theorem wfValueList_mem (vs : List Value) (hw : wfValueList vs = true) :
    ∀ e ∈ vs, wfValue e = true := by
  induction vs with
  | nil => intro e he; cases he
  | cons v t ih =>
    rw [wfValueList, Bool.and_eq_true] at hw
    intro e he
    rcases List.mem_cons.1 he with rfl | ht
    · exact hw.1
    · exact ih hw.2 e ht

theorem formatList_member_le (e : Value) (vs : List Value) (he : e ∈ vs) :
    (formatValue e).length ≤ (formatList vs).length := by
  induction vs with
  | nil => cases he
  | cons v t ih =>
    rcases List.mem_cons.1 he with rfl | ht
    · simp [formatList]
    · rw [formatList, List.length_append]
      have := ih ht
      omega

theorem parseF_formatValue :
    ∀ fuel : Nat, ∀ (v : Value) (rest : List Nat), wfValue v = true →
      (formatValue v).length < fuel →
      parseF fuel (formatValue v ++ rest) = .ok (v, rest) := by
  intro fuel
  induction fuel using Nat.strong_induction_on with
  | _ fuel IH =>
    intro v rest hwf hlen
    cases fuel with
    | zero => omega
    | succ m =>
      cases v with
      | Integer n =>
        have hwf' : -(2 ^ 63) ≤ n ∧ n ≤ 2 ^ 63 - 1 := by
          simpa [wfValue] using hwf
        have hread : readUntilCrlf (intToBytes n ++ 13 :: 10 :: rest) = (intToBytes n, rest) :=
          readUntilCrlf_terminates (intToBytes n) rest (intToBytes_no_cr n)
        simp [formatValue, parseF, parseStep, parseInteger, hread,
          parseI64_intToBytes n hwf'.1 hwf'.2]
      | SimpleString s =>
        have hwf' : ∀ c ∈ s, c < 128 ∧ c ≠ 13 ∧ c ≠ 10 := by
          simpa [wfValue, List.all_eq_true] using hwf
        have henc : utf8Encode s = s := utf8Encode_ascii s (fun c hc => (hwf' c hc).1)
        have hread : readUntilCrlf (s ++ 13 :: 10 :: rest) = (s, rest) :=
          readUntilCrlf_terminates s rest (fun c hc => (hwf' c hc).2.1)
        simp [formatValue, henc, parseF, parseStep, parseSimpleString, hread]
      | Error s =>
        have hwf' : ∀ c ∈ s, c < 128 ∧ c ≠ 13 ∧ c ≠ 10 := by
          simpa [wfValue, List.all_eq_true] using hwf
        have henc : utf8Encode s = s := utf8Encode_ascii s (fun c hc => (hwf' c hc).1)
        have hread : readUntilCrlf (s ++ 13 :: 10 :: rest) = (s, rest) :=
          readUntilCrlf_terminates s rest (fun c hc => (hwf' c hc).2.1)
        simp [formatValue, henc, parseF, parseStep, parseErrorVal, hread]
      | BulkString s =>
        have hwf' : (∀ c ∈ s, c < 128) ∧ s.length < 2 ^ 31 := by
          simpa [wfValue, List.all_eq_true] using hwf
        have henc : utf8Encode s = s := utf8Encode_ascii s hwf'.1
        have hres := parseBulkString_payload s 13 10 rest hwf'.1 hwf'.2
        simp [formatValue, henc, parseF, parseStep, hres]
      | NullBulkString =>
        simp [formatValue, parseF, parseStep, parseBulkString, parseLen_null rest]
      | NullArray =>
        simp [formatValue, parseF, parseStep, parseArrayStep, parseLen_null rest]
      | Array vs =>
        rw [wfValue, Bool.and_eq_true, decide_eq_true_eq] at hwf
        obtain ⟨h31, hwfl⟩ := hwf
        have hdig : 1 ≤ (natToDigits vs.length).length := by
          have := natToDigits_ne_nil vs.length
          cases hne : natToDigits vs.length with
          | nil => exact absurd hne this
          | cons a l => simp
        have hbound : ∀ e ∈ vs, (formatValue e).length < m := by
          simp only [formatValue, List.length_cons, List.length_append] at hlen
          intro e he
          have h1 := formatList_member_le e vs he
          omega
        have helems : ∀ (ws : List Value) (r : List Nat), wfValueList ws = true →
            (∀ e ∈ ws, (formatValue e).length < m) →
            runElems (parseF m) ws.length (formatList ws ++ r) = .ok (ws, r) := by
          intro ws
          induction ws with
          | nil =>
            intro r _ _
            simp [runElems, formatList]
          | cons e t iht =>
            intro r hwfl' hb
            rw [wfValueList, Bool.and_eq_true] at hwfl'
            have hpe : parseF m (formatValue e ++ (formatList t ++ r)) =
                .ok (e, formatList t ++ r) :=
              IH m (by omega) e (formatList t ++ r) hwfl'.1 (hb e (by simp))
            have hrec := iht r hwfl'.2 (fun e' he' => hb e' (by simp [he']))
            simp [formatList, List.length_cons, runElems, List.append_assoc, hpe, hrec]
        have harr : parseArrayStep (parseF m)
            (natToDigits vs.length ++ 13 :: 10 :: (formatList vs ++ rest)) =
            .ok (.Array vs, rest) := by
          rw [parseArrayStep, parseLen_digits vs.length (formatList vs ++ rest) h31]
          have hne1 : ¬((vs.length : Int) = -1) := by omega
          have hneg : ¬((vs.length : Int) < 0) := by omega
          have htn : ((vs.length : Int)).toNat = vs.length := Int.toNat_natCast vs.length
          simp only [hne1, if_false, hneg, htn]
          rw [helems vs rest hwfl hbound]
        simp [formatValue, parseF, parseStep, List.append_assoc, harr]

/-! ## Claim C2: codec round trip -/

theorem parseValue_bulk (s : List Nat) : parseValue (36 :: s) = parseBulkString s := rfl

theorem parseValue_array (s : List Nat) :
    parseValue (42 :: s) = parseArrayStep (parseF (s.length + 1)) s := rfl

set_option maxRecDepth 40000 in
/-- Claim C2 (counterexample): three wire values of the claimed shape on
which parse∘format is not the identity.  (i) A bulk string of `2^31`
ASCII bytes: the declared length is re-parsed with `parse::<i32>` and
overflows, so the parse fails with `InvalidInput`.  (ii) The simple
string of the one scalar `é` (U+00E9): the formatter writes its two UTF-8
bytes `195 169` and `read_until_crlf` reads them back byte-as-`char`,
yielding the two-scalar string `Ã©` instead of the original value.
(iii) The bulk string `a` followed by 128 copies of `é` (257 UTF-8
bytes): the full 256-byte read chunk of `parse_bulk_string` ends in the
middle of the last `é`, the chunk alone is not valid UTF-8, and
`String::from_utf8(..).unwrap()` panics. -/
theorem c2_counterexample :
    parseValue (formatValue (.BulkString (List.replicate (2 ^ 31) 97))) =
      .error .invalidInput ∧
    (parseValue (formatValue (.SimpleString [233])) = .ok (.SimpleString [195, 169], []) ∧
      Value.SimpleString [195, 169] ≠ Value.SimpleString [233]) ∧
    parseValue (formatValue (.BulkString (97 :: List.replicate 128 233))) =
      .error .panicked := by
  refine ⟨?_, ⟨by rfl, by simp⟩, by rfl⟩
  have hascii : ∀ b ∈ List.replicate (2 ^ 31) 97, b < 128 := by
    intro b hb
    rw [List.eq_of_mem_replicate hb]
    omega
  have henc : utf8Encode (List.replicate (2 ^ 31) 97) = List.replicate (2 ^ 31) 97 :=
    utf8Encode_ascii _ hascii
  have hdig : natToDigits (utf8Encode (List.replicate (2 ^ 31) 97)).length =
      [50, 49, 52, 55, 52, 56, 51, 54, 52, 56] := by
    rw [henc, List.length_replicate]
    decide
  have herr : parseLen ([50, 49, 52, 55, 52, 56, 51, 54, 52, 56] ++ 13 :: 10 ::
      (utf8Encode (List.replicate (2 ^ 31) 97) ++ [13, 10])) = .error .invalidInput :=
    parseLen_err _ _ (by decide) (by decide) (by decide)
  show parseValue (36 :: (natToDigits (utf8Encode (List.replicate (2 ^ 31) 97)).length ++
      [13, 10] ++ utf8Encode (List.replicate (2 ^ 31) 97) ++ [13, 10])) = .error .invalidInput
  rw [parseValue_bulk, hdig]
  have hmatch : [50, 49, 52, 55, 52, 56, 51, 54, 52, 56] ++ [13, 10] ++
      utf8Encode (List.replicate (2 ^ 31) 97) ++ [13, 10] =
      [50, 49, 52, 55, 52, 56, 51, 54, 52, 56] ++ 13 :: 10 ::
      (utf8Encode (List.replicate (2 ^ 31) 97) ++ [13, 10]) := by
    rw [List.append_assoc, List.append_assoc]
    rfl
  rw [hmatch, parseBulkString, herr]

/-- Claim C2 (amended): for every well-formed wire value — simple strings
and errors ASCII and free of CR/LF, bulk strings ASCII, integers in the
`i64` range, and every bulk-string payload and array shorter than `2^31`
(declared lengths are re-parsed as `i32`) — parsing the formatter's
output yields the value back and consumes every byte the formatter
produced. -/
theorem c2_roundtrip (v : Value) (hwf : wfValue v = true) :
    parseValue (formatValue v) = .ok (v, []) := by
  have h := parseF_formatValue ((formatValue v).length + 1) v [] hwf (by omega)
  simpa [parseValue] using h

/-- Claim C2 witness: a nested well-formed value round-trips and the parse
consumes the whole encoding. -/
theorem c2_roundtrip_witness :
    wfValue (.Array [.Integer (-5), .BulkString [104, 105], .NullBulkString,
      .SimpleString [79, 75]]) = true ∧
    parseValue (formatValue (.Array [.Integer (-5), .BulkString [104, 105], .NullBulkString,
      .SimpleString [79, 75]])) =
      .ok (.Array [.Integer (-5), .BulkString [104, 105], .NullBulkString,
        .SimpleString [79, 75]], []) :=
  ⟨by decide, c2_roundtrip _ (by decide)⟩

/-! ## Claim C10: `skip_crlf` consumes without checking -/

/-- Claim C10 (amended): for every declared length `L < 2^31` and every
all-ASCII payload of `L` bytes (ASCII keeps every 256-byte read chunk
standalone-valid UTF-8, so the unwrapped `String::from_utf8` cannot
panic), the input `$L\x0d\x0a` + payload + two arbitrary bytes parses
successfully as `BulkString(payload)` — the two trailing bytes are
consumed without being checked for CR LF. -/
theorem c10_skip_crlf_unchecked (L : Nat) (payload : List Nat) (t1 t2 : Nat) (rest : List Nat)
    (hlen : payload.length = L) (hbound : L < 2 ^ 31) (hascii : ∀ b ∈ payload, b < 128) :
    parseValue (36 :: (natToDigits L ++ 13 :: 10 :: (payload ++ t1 :: t2 :: rest))) =
      .ok (.BulkString payload, rest) := by
  subst hlen
  rw [parseValue_bulk]
  exact parseBulkString_payload payload t1 t2 rest hascii hbound

/-- Claim C10 witness: a concrete `$2` frame whose two trailing bytes are
`7` and `8` (not CR LF) still parses as `BulkString [0, 1]`. -/
theorem c10_skip_crlf_unchecked_witness :
    parseValue (36 :: (natToDigits 2 ++ 13 :: 10 :: ([0, 1] ++ 7 :: 8 :: [9]))) =
      .ok (.BulkString [0, 1], [9]) :=
  c10_skip_crlf_unchecked 2 [0, 1] 7 8 [9] (by decide) (by decide) (by decide)

/-- Claim C10 (counterexample): two inputs exactly of the claimed form
`$L\x0d\x0a` + `L` payload bytes + two bytes on which the parse does not
succeed as `BulkString(payload)`.  With `L = 1` and the single payload
byte `255` — not valid UTF-8 — `String::from_utf8(..).unwrap()` panics;
with `L = 2^31` the declared length is re-parsed as `i32`, overflows, and
the parse fails with `InvalidInput`. -/
theorem c10_counterexample :
    parseValue [36, 49, 13, 10, 255, 13, 10] = .error .panicked ∧
    parseValue (36 :: (natToDigits (2 ^ 31) ++ 13 :: 10 ::
      (List.replicate (2 ^ 31) 0 ++ 13 :: 10 :: []))) = .error .invalidInput := by
  constructor
  · rfl
  · have hdig : natToDigits (2 ^ 31) = [50, 49, 52, 55, 52, 56, 51, 54, 52, 56] := by decide
    have herr : parseLen ([50, 49, 52, 55, 52, 56, 51, 54, 52, 56] ++ 13 :: 10 ::
        (List.replicate (2 ^ 31) 0 ++ 13 :: 10 :: [])) = .error .invalidInput :=
      parseLen_err _ _ (by decide) (by decide) (by decide)
    rw [parseValue_bulk, hdig, parseBulkString, herr]

/-! ## Shard-level store lemmas -/

theorem listGet_none_of_ne {K V : Type} [LinearOrder K] (k : K) (l : List (K × V))
    (hall : ∀ p ∈ l, p.1 ≠ k) : listGet k l = none := by
  induction l with
  | nil => rfl
  | cons p t ih =>
    obtain ⟨a, b⟩ := p
    have ha : a ≠ k := hall (a, b) (by simp)
    by_cases hgt : a > k
    · simp [listGet, ha, hgt]
    · simp [listGet, ha, hgt, ih (fun q hq => hall q (by simp [hq]))]

theorem listGet_set_self {K V : Type} [LinearOrder K] (k : K) (v : V) (l : List (K × V)) :
    listGet k (listSet k v l) = some v := by
  induction l with
  | nil => simp [listSet, listGet]
  | cons p t ih =>
    obtain ⟨a, b⟩ := p
    by_cases hgt : a > k
    · simp [listSet, hgt, listGet]
    · by_cases heq : a = k
      · simp [listSet, hgt, heq, listGet]
      · simp [listSet, hgt, heq, listGet, ih]

theorem listGet_set_ne {K V : Type} [LinearOrder K] (k k' : K) (v' : V) (l : List (K × V))
    (hne : k' ≠ k) : listGet k (listSet k' v' l) = listGet k l := by
  induction l with
  | nil =>
    by_cases hgt : k' > k <;> simp [listSet, listGet, hne, hgt]
  | cons p t ih =>
    obtain ⟨a, b⟩ := p
    by_cases hgt1 : a > k'
    · rw [listSet, if_pos hgt1]
      by_cases hk : k' > k
      · have hak : k < a := lt_trans hk hgt1
        simp [listGet, hne, hk, ne_of_gt hak, hak]
      · simp [listGet, hne, hk]
    · by_cases heq : a = k'
      · subst heq
        rw [listSet, if_neg hgt1, if_pos rfl]
        by_cases hgt : a > k <;> simp [listGet, hne, hgt]
      · rw [listSet, if_neg hgt1, if_neg heq]
        by_cases hak : a = k
        · simp [listGet, hak]
        · by_cases hgt : a > k
          · simp [listGet, hak, hgt]
          · simp [listGet, hak, hgt, ih]

theorem listRemoveIf_sublist {K V : Type} [LinearOrder K] (k : K) (c : V → Bool)
    (l : List (K × V)) : (listRemoveIf k c l).1.Sublist l := by
  induction l with
  | nil => simp [listRemoveIf]
  | cons p t ih =>
    obtain ⟨a, b⟩ := p
    by_cases hgt : a > k
    · simp [listRemoveIf, hgt]
    · by_cases heq : a = k
      · by_cases hc : c b
        · simp [listRemoveIf, hgt, heq, hc]
        · simp [listRemoveIf, hgt, heq, hc]
      · simpa [listRemoveIf, hgt, heq] using ih.cons₂ (a, b)

theorem mem_listSet {K V : Type} [LinearOrder K] (p : K × V) (k : K) (v : V)
    (l : List (K × V)) (hp : p ∈ listSet k v l) : p.1 = k ∨ p ∈ l := by
  induction l with
  | nil =>
    simp [listSet] at hp
    simp [hp]
  | cons q t ih =>
    obtain ⟨a, b⟩ := q
    by_cases hgt : a > k
    · simp [listSet, hgt] at hp
      rcases hp with rfl | hp
      · simp
      · simp [hp]
    · by_cases heq : a = k
      · simp [listSet, hgt, heq] at hp
        rcases hp with rfl | hp
        · simp [heq]
        · simp [hp]
      · simp [listSet, hgt, heq] at hp
        rcases hp with rfl | hp
        · simp
        · rcases ih hp with hk | hm
          · simp [hk]
          · simp [hm]

theorem sorted_listSet {K V : Type} [LinearOrder K] (k : K) (v : V) (l : List (K × V))
    (hs : Sorted l) : Sorted (listSet k v l) := by
  induction l with
  | nil => simp [listSet, Sorted]
  | cons p t ih =>
    obtain ⟨a, b⟩ := p
    obtain ⟨hat, hst⟩ := List.pairwise_cons.1 hs
    by_cases hgt : a > k
    · rw [listSet, if_pos hgt]
      refine List.pairwise_cons.2 ⟨?_, List.pairwise_cons.2 ⟨hat, hst⟩⟩
      intro q hq
      rcases List.mem_cons.1 hq with rfl | hq
      · exact hgt
      · exact lt_trans hgt (hat q hq)
    · by_cases heq : a = k
      · rw [listSet, if_neg hgt, if_pos heq]
        exact List.pairwise_cons.2 ⟨hat, hst⟩
      · have hak : a < k := lt_of_le_of_ne (le_of_not_lt hgt) heq
        rw [listSet, if_neg hgt, if_neg heq]
        refine List.pairwise_cons.2 ⟨?_, ih hst⟩
        intro q hq
        rcases mem_listSet q k v t hq with h1 | h1
        · rw [h1]
          exact hak
        · exact hat q h1

theorem sorted_listRemoveIf {K V : Type} [LinearOrder K] (k : K) (c : V → Bool)
    (l : List (K × V)) (hs : Sorted l) : Sorted (listRemoveIf k c l).1 :=
  List.Pairwise.sublist (listRemoveIf_sublist k c l) hs

theorem listGet_removeIf_ne {K V : Type} [LinearOrder K] (k k' : K) (c : V → Bool)
    (l : List (K × V)) (hne : k' ≠ k) (hs : Sorted l) :
    listGet k (listRemoveIf k' c l).1 = listGet k l := by
  induction l with
  | nil => rfl
  | cons p t ih =>
    obtain ⟨a, b⟩ := p
    obtain ⟨hat, hst⟩ := List.pairwise_cons.1 hs
    by_cases hgt : a > k'
    · rw [listRemoveIf, if_pos hgt]
    · by_cases heq : a = k'
      · subst heq
        by_cases hc : c b
        · rw [listRemoveIf, if_neg hgt, if_pos rfl, if_pos hc]
          by_cases hak : a > k
          · have hnone : listGet k t = none :=
              listGet_none_of_ne k t (fun q hq => ne_of_gt (lt_trans hak (hat q hq)))
            simp [listGet, hne, hak, hnone]
          · simp [listGet, hne, hak]
        · rw [listRemoveIf, if_neg hgt, if_pos rfl, if_neg hc]
      · rw [listRemoveIf, if_neg hgt, if_neg heq]
        by_cases hak : a = k
        · simp [listGet, hak]
        · by_cases hgt2 : a > k
          · simp [listGet, hak, hgt2]
          · simp [listGet, hak, hgt2, ih hst]

theorem listGet_remove_key {K V : Type} [LinearOrder K] (k : K) (l : List (K × V))
    (hs : Sorted l) : listGet k (listRemoveIf k (fun _ => true) l).1 = none := by
  induction l with
  | nil => rfl
  | cons p t ih =>
    obtain ⟨a, b⟩ := p
    obtain ⟨hat, hst⟩ := List.pairwise_cons.1 hs
    by_cases hgt : a > k
    · rw [listRemoveIf, if_pos hgt]
      simp [listGet, ne_of_gt hgt, hgt]
    · by_cases heq : a = k
      · subst heq
        rw [listRemoveIf, if_neg hgt, if_pos rfl, if_pos rfl]
        exact listGet_none_of_ne a t (fun q hq => ne_of_gt (hat q hq))
      · have hak : a < k := lt_of_le_of_ne (le_of_not_lt hgt) heq
        rw [listRemoveIf, if_neg hgt, if_neg heq]
        simp [listGet, heq, hgt, ih hst]

theorem listGet_none_all_ne {K V : Type} [LinearOrder K] (k : K) (l : List (K × V))
    (hs : Sorted l) (hnone : listGet k l = none) : ∀ p ∈ l, p.1 ≠ k := by
  induction l with
  | nil => intro p hp; cases hp
  | cons p t ih =>
    obtain ⟨a, b⟩ := p
    rw [Sorted, List.pairwise_cons] at hs
    obtain ⟨hat, hst⟩ := hs
    by_cases hak : a = k
    · simp [listGet, hak] at hnone
    · by_cases hgt : a > k
      · intro q hq
        rcases List.mem_cons.1 hq with rfl | hq
        · exact hak
        · exact (ne_of_gt (lt_trans hgt (hat q hq)))
      · simp [listGet, hak, hgt] at hnone
        intro q hq
        rcases List.mem_cons.1 hq with rfl | hq
        · exact hak
        · exact ih hst hnone q hq

theorem listGet_removeIf_none {K V : Type} [LinearOrder K] (k k' : K) (c : V → Bool)
    (l : List (K × V)) (hs : Sorted l) (hnone : listGet k l = none) :
    listGet k (listRemoveIf k' c l).1 = none := by
  apply listGet_none_of_ne
  intro p hp
  exact listGet_none_all_ne k l hs hnone p ((listRemoveIf_sublist k' c l).mem hp)

/-! ## Table-level store lemmas -/

theorem getD_set_self {A : Type} (s : List A) (i : Nat) (x d : A) (h : i < s.length) :
    (s.set i x).getD i d = x := by
  rw [List.getD_eq_getElem?_getD, List.getElem?_set_self h]
  rfl

theorem getD_set_ne {A : Type} (s : List A) (i j : Nat) (x d : A) (h : i ≠ j) :
    (s.set i x).getD j d = s.getD j d := by
  rw [List.getD_eq_getElem?_getD, List.getD_eq_getElem?_getD, List.getElem?_set_ne h]

theorem getD_sorted {K V : Type} [LinearOrder K] {s : Table K V} (hs : TableSorted s)
    (i : Nat) : Sorted (s.getD i []) := by
  by_cases h : i < s.length
  · have hmem : s.getD i [] ∈ s := by
      rw [List.getD_eq_getElem?_getD, List.getElem?_eq_getElem h]
      exact List.getElem_mem h
    exact hs _ hmem
  · rw [List.getD_eq_getElem?_getD, List.getElem?_eq_none (by omega)]
    exact List.Pairwise.nil

theorem tableSorted_set {K V : Type} [LinearOrder K] (h : K → Nat) (k : K) (v : V)
    {s : Table K V} (hs : TableSorted s) : TableSorted (tableSet h k v s) := by
  intro l hl
  rcases List.mem_or_eq_of_mem_set hl with hmem | rfl
  · exact hs l hmem
  · exact sorted_listSet _ _ _ (getD_sorted hs _)

theorem tableSorted_removeIf {K V : Type} [LinearOrder K] (h : K → Nat) (k : K)
    (c : V → Bool) {s : Table K V} (hs : TableSorted s) :
    TableSorted (tableRemoveIf h k c s).1 := by
  intro l hl
  rcases List.mem_or_eq_of_mem_set hl with hmem | rfl
  · exact hs l hmem
  · exact sorted_listRemoveIf _ _ _ (getD_sorted hs _)

theorem tableGet_set_self {K V : Type} [LinearOrder K] (h : K → Nat) (k : K) (v : V)
    (s : Table K V) (hN : 0 < s.length) : tableGet h k (tableSet h k v s) = some v := by
  have hidx : h k % s.length < s.length := Nat.mod_lt (h k) hN
  unfold tableGet tableSet tableIdx
  rw [List.length_set, getD_set_self _ _ _ _ hidx, listGet_set_self]

theorem tableGet_set_ne {K V : Type} [LinearOrder K] (h : K → Nat) (k k' : K) (v' : V)
    (s : Table K V) (hne : k' ≠ k) : tableGet h k (tableSet h k' v' s) = tableGet h k s := by
  rcases Nat.eq_zero_or_pos s.length with h0 | hN
  · obtain rfl : s = [] := List.length_eq_zero.1 h0
    rfl
  · unfold tableGet tableSet tableIdx
    rw [List.length_set]
    by_cases hsame : h k' % s.length = h k % s.length
    · rw [← hsame, getD_set_self _ _ _ _ (Nat.mod_lt _ hN), listGet_set_ne _ _ _ _ hne, hsame]
    · rw [getD_set_ne _ _ _ _ _ hsame]

theorem tableGet_removeIf_ne {K V : Type} [LinearOrder K] (h : K → Nat) (k k' : K)
    (c : V → Bool) (s : Table K V) (hne : k' ≠ k) (hsorted : TableSorted s) :
    tableGet h k (tableRemoveIf h k' c s).1 = tableGet h k s := by
  rcases Nat.eq_zero_or_pos s.length with h0 | hN
  · obtain rfl : s = [] := List.length_eq_zero.1 h0
    rfl
  · unfold tableGet tableRemoveIf tableIdx
    rw [List.length_set]
    by_cases hsame : h k' % s.length = h k % s.length
    · rw [← hsame, getD_set_self _ _ _ _ (Nat.mod_lt _ hN),
        listGet_removeIf_ne k k' c _ hne (getD_sorted hsorted _), hsame]
    · rw [getD_set_ne _ _ _ _ _ hsame]

theorem tableGet_remove_key {K V : Type} [LinearOrder K] (h : K → Nat) (k : K)
    (s : Table K V) (hsorted : TableSorted s) (hN : 0 < s.length) :
    tableGet h k (tableRemove h k s).1 = none := by
  have hidx : h k % s.length < s.length := Nat.mod_lt (h k) hN
  unfold tableRemove tableRemoveIf tableGet tableIdx
  rw [List.length_set, getD_set_self _ _ _ _ hidx, listGet_remove_key _ _ (getD_sorted hsorted _)]

theorem tableGet_removeIf_none {K V : Type} [LinearOrder K] (h : K → Nat) (k k' : K)
    (c : V → Bool) (s : Table K V) (hsorted : TableSorted s)
    (hnone : tableGet h k s = none) : tableGet h k (tableRemoveIf h k' c s).1 = none := by
  rcases Nat.eq_zero_or_pos s.length with h0 | hN
  · obtain rfl : s = [] := List.length_eq_zero.1 h0
    exact hnone
  · unfold tableGet tableRemoveIf tableIdx
    rw [List.length_set]
    unfold tableGet tableIdx at hnone
    by_cases hsame : h k' % s.length = h k % s.length
    · rw [← hsame, getD_set_self _ _ _ _ (Nat.mod_lt _ hN)]
      rw [← hsame] at hnone
      exact listGet_removeIf_none k k' c _ (getD_sorted hsorted _) hnone
    · rw [getD_set_ne _ _ _ _ _ hsame]
      exact hnone

theorem tableGet_persist_some {K V : Type} [LinearOrder K] (h : K → Nat) (k : K) (v : V) :
    ∀ (ops : List (StoreOp K V)) (t : Table K V), TableSorted t → 0 < t.length →
      (∀ op ∈ ops, OpAvoids k op = true) → tableGet h k t = some v →
      tableGet h k (applyOps h ops t) = some v := by
  intro ops
  induction ops with
  | nil =>
    intro t _ _ _ hget
    simpa [applyOps] using hget
  | cons op rest ih =>
    intro t hsort hN hops hget
    have hstep : applyOps h (op :: rest) t = applyOps h rest (applyOp h op t) := rfl
    rw [hstep]
    have hop := hops op (by simp)
    cases op with
    | set k' v' =>
      have hne : k' ≠ k := by simpa [OpAvoids] using hop
      exact ih (tableSet h k' v' t) (tableSorted_set h k' v' hsort)
        (by simpa [tableSet] using hN) (fun o ho => hops o (by simp [ho]))
        (by show tableGet h k (tableSet h k' v' t) = some v
            rw [tableGet_set_ne h k k' v' t hne]
            exact hget)
    | remove k' =>
      have hne : k' ≠ k := by simpa [OpAvoids] using hop
      exact ih (tableRemove h k' t).1 (tableSorted_removeIf h k' _ hsort)
        (by simpa [tableRemove, tableRemoveIf] using hN) (fun o ho => hops o (by simp [ho]))
        (by show tableGet h k (tableRemoveIf h k' (fun _ => true) t).1 = some v
            rw [tableGet_removeIf_ne h k k' _ t hne hsort]
            exact hget)
    | removeIf k' c =>
      have hne : k' ≠ k := by simpa [OpAvoids] using hop
      exact ih (tableRemoveIf h k' c t).1 (tableSorted_removeIf h k' c hsort)
        (by simpa [tableRemoveIf] using hN) (fun o ho => hops o (by simp [ho]))
        (by show tableGet h k (tableRemoveIf h k' c t).1 = some v
            rw [tableGet_removeIf_ne h k k' c t hne hsort]
            exact hget)

theorem tableGet_persist_none {K V : Type} [LinearOrder K] (h : K → Nat) (k : K) :
    ∀ (ops : List (StoreOp K V)) (t : Table K V), TableSorted t →
      (∀ op ∈ ops, OpNoSet k op = true) → tableGet h k t = none →
      tableGet h k (applyOps h ops t) = none := by
  intro ops
  induction ops with
  | nil =>
    intro t _ _ hget
    simpa [applyOps] using hget
  | cons op rest ih =>
    intro t hsort hops hget
    have hstep : applyOps h (op :: rest) t = applyOps h rest (applyOp h op t) := rfl
    rw [hstep]
    have hop := hops op (by simp)
    cases op with
    | set k' v' =>
      have hne : k' ≠ k := by simpa [OpNoSet] using hop
      exact ih (tableSet h k' v' t) (tableSorted_set h k' v' hsort)
        (fun o ho => hops o (by simp [ho]))
        (by show tableGet h k (tableSet h k' v' t) = none
            rw [tableGet_set_ne h k k' v' t hne]
            exact hget)
    | remove k' =>
      exact ih (tableRemove h k' t).1 (tableSorted_removeIf h k' _ hsort)
        (fun o ho => hops o (by simp [ho]))
        (by show tableGet h k (tableRemoveIf h k' (fun _ => true) t).1 = none
            exact tableGet_removeIf_none h k k' _ t hsort hget)
    | removeIf k' c =>
      exact ih (tableRemoveIf h k' c t).1 (tableSorted_removeIf h k' c hsort)
        (fun o ho => hops o (by simp [ho]))
        (by show tableGet h k (tableRemoveIf h k' c t).1 = none
            exact tableGet_removeIf_none h k k' c t hsort hget)

/-! ## Claim C1: set/get/remove persistence -/

/-- Claim C1: on any sorted store with at least one shard, after
`set(k, v)` every subsequent sequence of operations that neither sets nor
removes key `k` leaves `get(k) = Some v`; and after `remove(k)` every
subsequent sequence containing no `set(k, ·)` leaves `get(k)` absent. -/
theorem c1_set_then_get (K V : Type) [LinearOrder K] (h : K → Nat) (s : Table K V)
    (k : K) (v : V) (ops1 ops2 : List (StoreOp K V)) (hN : 0 < s.length)
    (hsort : TableSorted s) (h1 : ∀ op ∈ ops1, OpAvoids k op = true)
    (h2 : ∀ op ∈ ops2, OpNoSet k op = true) :
    tableGet h k (applyOps h ops1 (tableSet h k v s)) = some v ∧
    tableGet h k (applyOps h ops2 (tableRemove h k s).1) = none := by
  constructor
  · exact tableGet_persist_some h k v ops1 (tableSet h k v s) (tableSorted_set h k v hsort)
      (by simpa [tableSet] using hN) h1 (tableGet_set_self h k v s hN)
  · exact tableGet_persist_none h k ops2 (tableRemove h k s).1
      (tableSorted_removeIf h k _ hsort) h2 (tableGet_remove_key h k s hsort hN)

/-- Claim C1 witness: a concrete store, sets and removals on other keys in
between. -/
theorem c1_set_then_get_witness :
    tableGet (fun n => n) 3 (applyOps (fun n => n) [StoreOp.set 2 9, StoreOp.remove 5]
      (tableSet (fun n => n) 3 7 [[(5, 1)]])) = some 7 ∧
    tableGet (fun n => n) 3 (applyOps (fun n => n) [StoreOp.remove 3, StoreOp.set 4 1]
      (tableRemove (fun n => n) 3 [[(5, 1)]]).1) = none :=
  c1_set_then_get Nat Nat (fun n => n) [[(5, 1)]] 3 7 [StoreOp.set 2 9, StoreOp.remove 5]
    [StoreOp.remove 3, StoreOp.set 4 1] (by decide)
    (by intro l hl; simp at hl; subst hl; simp [Sorted])
    (by intro op hop; simp at hop; rcases hop with rfl | rfl <;> rfl)
    (by intro op hop; simp at hop; rcases hop with rfl | rfl <;> rfl)

/-! ## Claim C3: the order invariant -/

/-- Claim C3: in every shard state reachable from the empty shard by `set`,
`remove` and `remove_if`, traversal yields keys in strictly ascending
order — every key is strictly greater than its predecessor's and no two
nodes share a key. -/
theorem c3_order_invariant (K V : Type) [LinearOrder K] (l : List (K × V))
    (hr : ShardReach l) : List.Pairwise (· < ·) (l.map Prod.fst) := by
  have hs : Sorted l := by
    induction hr with
    | nil => exact List.Pairwise.nil
    | set k v _ ih => exact sorted_listSet k v _ ih
    | rem k _ ih => exact sorted_listRemoveIf k _ _ ih
    | remIf k c _ ih => exact sorted_listRemoveIf k c _ ih
  exact List.pairwise_map.2 hs

/-- Claim C3 witness: a shard reached by two inserts and a removal has
strictly ascending keys. -/
theorem c3_order_invariant_witness :
    List.Pairwise (· < ·)
      ((listRemove 2 (listSet 1 2 (listSet 3 4 ([] : List (Nat × Nat))))).1.map Prod.fst) :=
  c3_order_invariant Nat Nat _
    (ShardReach.rem 2 (ShardReach.set 1 2 (ShardReach.set 3 4 ShardReach.nil)))

/-! ## Sweeper machinery: locating and removing one expiring entry -/

theorem listRemoveIf_found {K V : Type} [LinearOrder K] (k : K) (w : V) (c : V → Bool)
    (l : List (K × V)) (hs : Sorted l) (hmem : (k, w) ∈ l) (hc : c w = true) :
    ∃ l1 l2, l = l1 ++ (k, w) :: l2 ∧ listRemoveIf k c l = (l1 ++ l2, true) := by
  induction l with
  | nil => cases hmem
  | cons p t ih =>
    obtain ⟨a, b⟩ := p
    obtain ⟨hat, hst⟩ := List.pairwise_cons.1 hs
    rcases List.mem_cons.1 hmem with heqq | hmemt
    · have hk : k = a := congrArg Prod.fst heqq
      have hw : w = b := congrArg Prod.snd heqq
      subst hk
      subst hw
      refine ⟨[], t, by simp, ?_⟩
      rw [listRemoveIf, if_neg (lt_irrefl k), if_pos rfl, if_pos hc]
      rfl
    · have hak : a < k := hat (k, w) hmemt
      have hgt : ¬a > k := lt_asymm hak
      have hne : a ≠ k := ne_of_lt hak
      obtain ⟨l1, l2, hdec, hres⟩ := ih hst hmemt
      refine ⟨(a, b) :: l1, l2, by rw [hdec]; rfl, ?_⟩
      rw [listRemoveIf, if_neg hgt, if_neg hne, hres]
      rfl

theorem getD_eq_getElem {A : Type} (s : List A) (d : A) (i : Nat) (h : i < s.length) :
    s.getD i d = s[i] := by
  rw [List.getD_eq_getElem?_getD, List.getElem?_eq_getElem h]
  rfl

theorem expiredKeys_length_sum {K T : Type} (s : Table K (DataFrame T)) :
    (expiredKeys s).length =
      (s.map (fun l => (l.filterMap expOf).length)).sum := by
  unfold expiredKeys
  rw [List.filterMap_flatten, List.length_flatten, List.map_map]
  rfl

theorem sum_map_set {A : Type} (f : A → Nat) (d : A) :
    ∀ (s : List A) (i : Nat) (x : A), i < s.length →
      ((s.set i x).map f).sum + f (s.getD i d) = (s.map f).sum + f x := by
  intro s
  induction s with
  | nil =>
    intro i x h
    simp at h
  | cons a t ih =>
    intro i x h
    cases i with
    | zero =>
      simp [List.set]
      omega
    | succ i =>
      have hlen : i < t.length := by simpa using h
      have ihh := ih i x hlen
      show ((a :: t.set i x).map f).sum + f (t.getD i d) = ((a :: t).map f).sum + f x
      simp only [List.map_cons, List.sum_cons]
      omega

theorem memT_of_mem_expired {K T : Type} [LinearOrder K] (h : K → Nat)
    (s : Table K (DataFrame T)) (hplaced : TablePlaced h s) (x : K × Nat × Nat)
    (hx : x ∈ expiredKeys s) : MemT h s x := by
  unfold expiredKeys at hx
  obtain ⟨p, hp, hpe⟩ := List.mem_filterMap.1 hx
  obtain ⟨pk, df⟩ := p
  cases df with
  | Empty => simp [expOf] at hpe
  | Plain u => simp [expOf] at hpe
  | Expiring d e t =>
    simp only [expOf] at hpe
    have hxval : (pk, e, t) = x := Option.some.inj hpe
    subst hxval
    obtain ⟨l, hls, hpl⟩ := List.mem_flatten.1 hp
    obtain ⟨i, hi, hserm⟩ := List.mem_iff_getElem.1 hls
    have hmem : (pk, DataFrame.Expiring d e t) ∈ s.getD i [] := by
      rw [getD_eq_getElem s [] i hi, hserm]
      exact hpl
    have hidx := hplaced i hi (pk, DataFrame.Expiring d e t) hmem
    refine ⟨d, ?_⟩
    show (pk, DataFrame.Expiring d e t) ∈ s.getD (tableIdx h pk s.length) []
    rw [hidx]
    exact hmem

theorem tableRemove_expiring {K T : Type} [LinearOrder K] (h : K → Nat)
    (s : Table K (DataFrame T)) (k : K) (e t : Nat) (hinv : SweeperInv h s)
    (hmem : MemT h s (k, e, t)) :
    (tableRemove h k s).2 = true ∧
    (expiredKeys (tableRemove h k s).1).length + 1 = (expiredKeys s).length ∧
    SweeperInv h (tableRemove h k s).1 ∧
    (∀ y : K × Nat × Nat, y.1 ≠ k → MemT h s y → MemT h (tableRemove h k s).1 y) := by
  obtain ⟨hN, hsort, hplace⟩ := hinv
  obtain ⟨d, hd⟩ := hmem
  have hi : tableIdx h k s.length < s.length := Nat.mod_lt (h k) hN
  have hshard := getD_sorted hsort (tableIdx h k s.length)
  obtain ⟨l1, l2, hdecomp, hres⟩ :=
    listRemoveIf_found k (DataFrame.Expiring d e t) (fun _ => true) _ hshard hd rfl
  have hrw : tableRemove h k s = (s.set (tableIdx h k s.length) (l1 ++ l2), true) := by
    unfold tableRemove tableRemoveIf
    rw [hres]
  have hfst : (tableRemove h k s).1 = s.set (tableIdx h k s.length) (l1 ++ l2) := by
    rw [hrw]
  have hsnd : (tableRemove h k s).2 = true := by
    rw [hrw]
  refine ⟨hsnd, ?_, ?_, ?_⟩
  · rw [hfst]
    rw [expiredKeys_length_sum, expiredKeys_length_sum]
    have hsum := sum_map_set (fun l => (l.filterMap expOf).length) [] s
      (tableIdx h k s.length) (l1 ++ l2) hi
    rw [hdecomp] at hsum
    simp only [List.filterMap_append, List.length_append, List.filterMap_cons, expOf,
      List.length_cons] at hsum
    omega
  · rw [hfst]
    refine ⟨by simpa using hN, ?_, ?_⟩
    · intro l hl
      rcases List.mem_or_eq_of_mem_set hl with hold | rfl
      · exact hsort l hold
      · have hsub : (l1 ++ l2).Sublist (l1 ++ (k, DataFrame.Expiring d e t) :: l2) :=
          (List.sublist_cons_self _ _).append_left l1
        rw [hdecomp] at hshard
        exact List.Pairwise.sublist hsub hshard
    · intro j hj p hp
      rw [List.length_set] at hj
      by_cases hij : tableIdx h k s.length = j
      · subst hij
        rw [getD_set_self _ _ _ _ hi] at hp
        have hp' : p ∈ s.getD (tableIdx h k s.length) [] := by
          rw [hdecomp]
          rcases List.mem_append.1 hp with h1 | h2
          · exact List.mem_append.2 (Or.inl h1)
          · exact List.mem_append.2 (Or.inr (List.mem_cons_of_mem _ h2))
        have := hplace _ hi p hp'
        simpa [List.length_set] using this
      · rw [getD_set_ne _ _ _ _ _ hij] at hp
        have := hplace j hj p hp
        simpa [List.length_set] using this
  · intro y hyne hymem
    obtain ⟨dy, hdy⟩ := hymem
    rw [hfst]
    refine ⟨dy, ?_⟩
    show (y.1, DataFrame.Expiring dy y.2.1 y.2.2) ∈
      (s.set (tableIdx h k s.length) (l1 ++ l2)).getD
        (tableIdx h y.1 (s.set (tableIdx h k s.length) (l1 ++ l2)).length) []
    rw [List.length_set]
    by_cases hij : tableIdx h k s.length = tableIdx h y.1 s.length
    · rw [← hij, getD_set_self _ _ _ _ hi]
      have hin : (y.1, DataFrame.Expiring dy y.2.1 y.2.2) ∈
          l1 ++ (k, DataFrame.Expiring d e t) :: l2 := by
        rw [← hdecomp, hij]
        exact hdy
      rcases List.mem_append.1 hin with h1 | h2
      · exact List.mem_append.2 (Or.inl h1)
      · rcases List.mem_cons.1 h2 with heq2 | h3
        · exact absurd (congrArg Prod.fst heq2) hyne
        · exact List.mem_append.2 (Or.inr h3)
    · rw [getD_set_ne _ _ _ _ _ hij]
      exact hdy

theorem sweepPass_cons_skip {K T : Type} [LinearOrder K] (h : K → Nat) (now : Nat)
    (k : K) (e t : Nat) (rest : List (K × Nat × Nat)) (s : Table K (DataFrame T))
    (hskip : e > now - t) :
    sweepPass h now ((k, e, t) :: rest) s = sweepPass h now rest s := by
  simp [sweepPass, hskip]

theorem sweepPass_cons_rem {K T : Type} [LinearOrder K] (h : K → Nat) (now : Nat)
    (k : K) (e t : Nat) (rest : List (K × Nat × Nat)) (s : Table K (DataFrame T))
    (hrem : ¬e > now - t) :
    sweepPass h now ((k, e, t) :: rest) s =
      ((sweepPass h now rest (tableRemove h k s).1).1,
        (if (tableRemove h k s).2 then 1 else 0) +
          (sweepPass h now rest (tableRemove h k s).1).2) := by
  simp [sweepPass, hrem]

theorem sweepPass_spec {K T : Type} [LinearOrder K] (h : K → Nat) (now : Nat) :
    ∀ (sample : List (K × Nat × Nat)) (s : Table K (DataFrame T)),
      SweeperInv h s → (∀ x ∈ sample, MemT h s x) → (sample.map Prod.fst).Nodup →
      (expiredKeys (sweepPass h now sample s).1).length + (sweepPass h now sample s).2 =
        (expiredKeys s).length ∧
      SweeperInv h (sweepPass h now sample s).1 := by
  intro sample
  induction sample with
  | nil =>
    intro s hinv _ _
    exact ⟨by simp [sweepPass], by simp only [sweepPass]; exact hinv⟩
  | cons x rest ih =>
    obtain ⟨k, e, t⟩ := x
    intro s hinv hmem hnodup
    have hnodup' : (rest.map Prod.fst).Nodup := by
      simp only [List.map_cons, List.nodup_cons] at hnodup
      exact hnodup.2
    by_cases hskip : e > now - t
    · rw [sweepPass_cons_skip h now k e t rest s hskip]
      exact ih s hinv (fun y hy => hmem y (by simp [hy])) hnodup'
    · rw [sweepPass_cons_rem h now k e t rest s hskip]
      obtain ⟨hrem, hcount, hinv', hpres⟩ :=
        tableRemove_expiring h s k e t hinv (hmem (k, e, t) (by simp))
      have hkey : k ∉ rest.map Prod.fst := by
        simp only [List.map_cons, List.nodup_cons] at hnodup
        exact hnodup.1
      have hrest_mem : ∀ y ∈ rest, MemT h (tableRemove h k s).1 y := by
        intro y hy
        refine hpres y ?_ (hmem y (by simp [hy]))
        intro hyk
        exact hkey (by rw [← hyk]; exact List.mem_map_of_mem Prod.fst hy)
      obtain ⟨hcount', hinv''⟩ := ih (tableRemove h k s).1 hinv' hrest_mem hnodup'
      rw [hrem]
      refine ⟨?_, hinv''⟩
      simp only [if_true]
      omega

theorem cleanIter_spec {K T : Type} [LinearOrder K] (h : K → Nat) (now : Nat)
    (sample : List (K × Nat × Nat)) (s : Table K (DataFrame T)) (hinv : SweeperInv h s)
    (hvalid : ValidSample sample s) :
    (cleanIter h now sample s).2 = true ∨
      (SweeperInv h (cleanIter h now sample s).1 ∧
        (expiredKeys (cleanIter h now sample s).1).length + 6 ≤ (expiredKeys s).length) := by
  obtain ⟨hsub, hnd, _⟩ := hvalid
  by_cases hshort : sample.length < cleanerTaskSampleSize
  · left
    simp [cleanIter, hshort]
  · have hmem : ∀ x ∈ sample, MemT h s x :=
      fun x hx => memT_of_mem_expired h s hinv.2.2 x (hsub x hx)
    obtain ⟨hcount, hinv'⟩ := sweepPass_spec h now sample s hinv hmem hnd
    by_cases hdone :
        (sweepPass h now sample s).2 ≤ cleanerTaskSampleSize / cleanerTaskSuccessFactor
    · left
      simp [cleanIter, hshort, hdone]
    · right
      have hge : 6 ≤ (sweepPass h now sample s).2 := by
        simp only [cleanerTaskSampleSize, cleanerTaskSuccessFactor] at hdone
        omega
      constructor
      · simpa [cleanIter, hshort] using hinv'
      · simp only [cleanIter, if_neg hshort]
        omega

theorem cleanLoop_succ {K T : Type} [LinearOrder K] (h : K → Nat) (now : Nat)
    (oracle : Table K (DataFrame T) → List (K × Nat × Nat)) (fuel : Nat)
    (s : Table K (DataFrame T)) :
    cleanLoop h now oracle (fuel + 1) s =
      if (cleanIter h now (oracle s) s).2 then some (cleanIter h now (oracle s) s).1
      else cleanLoop h now oracle fuel (cleanIter h now (oracle s) s).1 := rfl

theorem cleanLoop_mono {K T : Type} [LinearOrder K] (h : K → Nat) (now : Nat)
    (oracle : Table K (DataFrame T) → List (K × Nat × Nat)) :
    ∀ (f f' : Nat) (s : Table K (DataFrame T)), f ≤ f' →
      (cleanLoop h now oracle f s).isSome = true →
      (cleanLoop h now oracle f' s).isSome = true := by
  intro f
  induction f with
  | zero =>
    intro f' s _ hs
    simp [cleanLoop] at hs
  | succ f ih =>
    intro f' s hle hs
    obtain ⟨f'', rfl⟩ : ∃ g, f' = g + 1 := ⟨f' - 1, by omega⟩
    rw [cleanLoop_succ] at hs ⊢
    by_cases hdone : (cleanIter h now (oracle s) s).2
    · rw [if_pos hdone] at hs ⊢
      exact hs
    · rw [if_neg hdone] at hs ⊢
      exact ih f'' _ (by omega) hs

/-! ## Claim C5: the sweeper terminates each tick -/

/-- Claim C5: for every store satisfying the reachable-store invariants and
every valid sampling oracle, the `while !is_done` loop of `clean_expired`
ends the tick within `(number of expiring entries) + 1` iterations: an
iteration either ends the tick (fewer than `S = 20` sampled candidates, or
at most `S / F = 5` successful removals) or strictly decreases the expiring
population (by at least 6 distinct removed keys) before repeating. -/
theorem c5_sweeper_terminates (K T : Type) [LinearOrder K] (h : K → Nat) (now : Nat)
    (oracle : Table K (DataFrame T) → List (K × Nat × Nat)) (s : Table K (DataFrame T))
    (hinv : SweeperInv h s) (horacle : ∀ u, SweeperInv h u → ValidSample (oracle u) u) :
    (cleanLoop h now oracle ((expiredKeys s).length + 1) s).isSome = true := by
  suffices H : ∀ c : Nat, ∀ u : Table K (DataFrame T), SweeperInv h u →
      (expiredKeys u).length = c →
      (cleanLoop h now oracle (c + 1) u).isSome = true by
    exact H _ s hinv rfl
  intro c
  induction c using Nat.strong_induction_on with
  | _ c IH =>
    intro u hinvu hc
    rw [cleanLoop_succ]
    by_cases hdone : (cleanIter h now (oracle u) u).2
    · simp [hdone]
    · rw [if_neg hdone]
      rcases cleanIter_spec h now (oracle u) u hinvu (horacle u hinvu) with hd | ⟨hinv', hdec⟩
      · exact absurd hd hdone
      · rw [hc] at hdec
        have hlt : (expiredKeys (cleanIter h now (oracle u) u).1).length < c := by omega
        have hrec := IH _ hlt (cleanIter h now (oracle u) u).1 hinv' rfl
        exact cleanLoop_mono h now oracle _ c _ (by omega) hrec

theorem filterMap_expOf_keys_sublist {K T : Type} (l : List (K × DataFrame T)) :
    ((l.filterMap expOf).map Prod.fst).Sublist (l.map Prod.fst) := by
  induction l with
  | nil => simp
  | cons p t ih =>
    obtain ⟨pk, df⟩ := p
    cases df with
    | Empty => simpa [expOf] using ih.cons pk
    | Plain u => simpa [expOf] using ih.cons pk
    | Expiring d e ts => simpa [expOf] using ih.cons₂ pk

theorem table_keys_nodup {K T : Type} [LinearOrder K] (h : K → Nat)
    (s : Table K (DataFrame T)) (hinv : SweeperInv h s) :
    (s.flatten.map Prod.fst).Nodup := by
  obtain ⟨_, hsort, hplace⟩ := hinv
  rw [List.map_flatten]
  rw [List.nodup_flatten]
  constructor
  · intro l hl
    obtain ⟨ll, hll, rfl⟩ := List.mem_map.1 hl
    have : Sorted ll := hsort ll hll
    exact (List.pairwise_map.2 this).imp (fun hlt => ne_of_lt hlt)
  · rw [List.pairwise_iff_getElem]
    intro i j hi hj hij
    intro a hai haj
    rw [List.getElem_map] at hai haj
    obtain ⟨p, hp, hpk⟩ := List.mem_map.1 hai
    obtain ⟨q, hq, hqk⟩ := List.mem_map.1 haj
    rw [List.length_map] at hi hj
    have hip : p ∈ s.getD i [] := by
      rw [getD_eq_getElem s [] i hi]
      exact hp
    have hjq : q ∈ s.getD j [] := by
      rw [getD_eq_getElem s [] j hj]
      exact hq
    have h1 := hplace i hi p hip
    have h2 := hplace j hj q hjq
    rw [hpk] at h1
    rw [hqk] at h2
    rw [h1] at h2
    omega

theorem expiredKeys_keys_nodup {K T : Type} [LinearOrder K] (h : K → Nat)
    (s : Table K (DataFrame T)) (hinv : SweeperInv h s) :
    ((expiredKeys s).map Prod.fst).Nodup :=
  List.Nodup.sublist (filterMap_expOf_keys_sublist s.flatten) (table_keys_nodup h s hinv)

theorem takeOracle_valid {K T : Type} [LinearOrder K] (h : K → Nat)
    (u : Table K (DataFrame T)) (hinv : SweeperInv h u) :
    ValidSample ((expiredKeys u).take cleanerTaskSampleSize) u := by
  refine ⟨?_, ?_, ?_⟩
  · intro x hx
    exact (List.take_sublist _ _).mem hx
  · rw [List.map_take]
    exact List.Nodup.sublist (List.take_sublist _ _) (expiredKeys_keys_nodup h u hinv)
  · rw [List.length_take]

/-- Claim C5 witness: the loop ends the tick on a concrete one-entry store
with the `take`-prefix sampling oracle (which is valid for every
invariant-satisfying store). -/
theorem c5_sweeper_terminates_witness :
    (cleanLoop (fun n : Nat => n) 10
      (fun u => (expiredKeys u).take cleanerTaskSampleSize)
      ((expiredKeys ([[(0, DataFrame.Expiring 1 5 0)]] : Table Nat (DataFrame Nat))).length + 1)
      [[(0, DataFrame.Expiring 1 5 0)]]).isSome = true :=
  c5_sweeper_terminates Nat Nat (fun n => n) 10
    (fun u => (expiredKeys u).take cleanerTaskSampleSize)
    [[(0, DataFrame.Expiring 1 5 0)]]
    ⟨by decide,
      by intro l hl; simp at hl; subst hl; simp [Sorted],
      by
        intro i hi p hp
        have hzero : i = 0 := by simpa using hi
        subst hzero
        simp at hp
        subst hp
        rfl⟩
    (fun u hu => takeOracle_valid (fun n => n) u hu)
